import Mathlib

set_option maxRecDepth 8192
set_option maxHeartbeats 1000000

/-!
Verification development for the document templating and conversion pipeline
of `bot.py` (function `fill_docx_and_convert`, together with the container
scanning and external-renderer logic around it).

The embedding models:
* Python's `re` matching semantics for the two placeholder patterns the code
  builds (`pattern_double` and `pattern_single`), as a small backtracking
  regular-expression engine whose list of candidate match remainders is
  produced in exactly Python's backtracking preference order (greedy `*`/`+`/`?`
  try the longer alternative first, alternation tries the left branch first,
  an iteration of `*` that consumes nothing is abandoned);
* `re.escape`, `re.IGNORECASE` (modelled as `Char.toLower`-insensitive
  comparison of literals), and `re.sub` including Python's processing of the
  replacement template (`\\`, `\n`-style escapes, group references);
* the per-file substitution loop over the keys of the data dictionary;
* strict UTF-8 decoding/encoding and the part scanner's opaque/textual
  classification and rewrite-only-if-changed behaviour;
* the control flow of the whole pipeline (pre-removal of outputs, unpack,
  substitute, repack inside `try`/`finally` with `shutil.rmtree`, LibreOffice
  invocation and its error handling), as a pure function of an environment
  that decides which primitive filesystem/process operations succeed.
-/

/-! ### Whitespace, `\s` of Python's `re` module (str patterns) -/

/-- Characters matched by `\s` in Python `str` regexes (ASCII whitespace,
the C1 separators, NEL, NBSP and the Unicode space separators). -/
def pySpaceChars : List Char :=
  [' ', '\t', '\n', '\r', '\x0b', '\x0c',
   '\x1c', '\x1d', '\x1e', '\x1f', '\x85', '\xa0',
   ' ', ' ', ' ', ' ', ' ', ' ', ' ',
   ' ', ' ', ' ', ' ', ' ', ' ', ' ',
   ' ', ' ', '　']

/-- Whether `\s` matches `c`. -/
def isPySpace (c : Char) : Bool := pySpaceChars.contains c

/-! ### A small regular-expression abstract syntax

Only the operators appearing in the two patterns of `fill_docx_and_convert`
are needed: single-character classes, concatenation, alternation (for the
greedy `?` of `\/?`) and greedy Kleene star (`+` is encoded as `r · r*`). -/

inductive RE where
  | eps : RE
  | sym : (Char → Bool) → RE
  | seq : RE → RE → RE
  | alt : RE → RE → RE
  | star : RE → RE

/-- Structural size of a regular expression, used as termination measure. -/
def RE.size : RE → Nat
  | .eps => 1
  | .sym _ => 1
  | .seq a b => a.size + b.size + 1
  | .alt a b => a.size + b.size + 1
  | .star r => r.size + 1

/-- All ways a match of `r` can start at the front of `s`, listed as the
remainder of `s` after the matched prefix, in Python's backtracking
preference order: the head of this list is the span `re` actually matches.
A `star` iteration that consumes nothing is discarded, mirroring the
engine's refusal to loop on empty repetitions. -/
def msplits : RE → List Char → List (List Char)
  | .eps, s => [s]
  | .sym _, [] => []
  | .sym p, c :: rest => if p c then [rest] else []
  | .seq a b, s => (msplits a s).flatMap (fun m => msplits b m)
  | .alt a b, s => msplits a s ++ msplits b s
  | .star r, s =>
      (((msplits r s).filter (fun m => decide (m.length < s.length))).attach.flatMap
          (fun m => msplits (.star r) m.1)) ++ [s]
  termination_by r s => (RE.size r, s.length)
  decreasing_by
  all_goals first
    | exact Prod.Lex.right _ (by
        have h := m.2
        simp only [List.mem_filter, decide_eq_true_eq] at h
        exact h.2)
    | exact Prod.Lex.left _ _ (by simp [RE.size] <;> omega)

theorem msplits_eps (s : List Char) : msplits .eps s = [s] := by
  simp [msplits]

theorem msplits_sym_nil (p : Char → Bool) : msplits (.sym p) [] = [] := by
  simp [msplits]

theorem msplits_sym_cons (p : Char → Bool) (c : Char) (rest : List Char) :
    msplits (.sym p) (c :: rest) = if p c then [rest] else [] := by
  simp [msplits]

theorem msplits_seq (a b : RE) (s : List Char) :
    msplits (.seq a b) s = (msplits a s).flatMap (fun m => msplits b m) := by
  simp [msplits]

theorem msplits_alt (a b : RE) (s : List Char) :
    msplits (.alt a b) s = msplits a s ++ msplits b s := by
  simp [msplits]

theorem attach_flatMap_eq {α β : Type _} (l : List α) (f : α → List β) :
    (l.attach.flatMap fun x => f x.1) = l.flatMap f := by
  induction l with
  | nil => rfl
  | cons a t ih =>
      rw [List.attach_cons, List.flatMap_cons, List.flatMap_map, List.flatMap_cons, ← ih]

theorem msplits_star (r : RE) (s : List Char) :
    msplits (.star r) s =
      ((msplits r s).filter (fun m => decide (m.length < s.length))).flatMap
        (fun m => msplits (.star r) m) ++ [s] := by
  conv_lhs => rw [msplits]
  rw [attach_flatMap_eq]

/-! ### Python replacement templates

`re.sub(pattern, repl, s)` with a string `repl` first parses `repl` as a
template (eagerly, before any match is attempted): `\\` and the letter
escapes denote single characters, `\0` starts an octal escape, `\1`..`\9`
and `\g<..>` are group references (the two patterns of the program contain
only non-capturing groups, so every nonzero reference is an
"invalid group reference" error), a backslash before another ASCII letter
is a "bad escape" error, and a backslash before any other character stays
as the two characters. -/

inductive TItem where
  | lit : List Char → TItem
  | grp : TItem
deriving DecidableEq

/-- The `ESCAPES` table of Python's template parser. -/
def escMap (c : Char) : Option Char :=
  if c = 'a' then some '\x07'
  else if c = 'b' then some '\x08'
  else if c = 'f' then some '\x0c'
  else if c = 'n' then some '\n'
  else if c = 'r' then some '\r'
  else if c = 't' then some '\t'
  else if c = 'v' then some '\x0b'
  else if c = '\\' then some '\\' else none

def isOctDigit (c : Char) : Bool := '0' ≤ c && c ≤ '7'

/-- Reads up to the next `>` (used for `\g<name>`). -/
def splitGt : List Char → Option (List Char × List Char)
  | [] => none
  | c :: rest =>
      if c = '>' then some ([], rest)
      else (splitGt rest).map (fun p => (c :: p.1, p.2))

theorem splitGt_length {l : List Char} {p : List Char × List Char}
    (h : splitGt l = some p) : p.2.length < l.length := by
  induction l generalizing p with
  | nil => simp [splitGt] at h
  | cons c rest ih =>
      by_cases hc : c = '>'
      · rw [splitGt, if_pos hc] at h
        cases h
        simp
      · rw [splitGt, if_neg hc] at h
        cases hs : splitGt rest with
        | none => rw [hs] at h; simp at h
        | some q =>
            rw [hs] at h
            rw [show ((some q).map fun p => (c :: p.1, p.2)) = some (c :: q.1, q.2) from rfl] at h
            have := ih hs
            cases h
            show q.2.length < rest.length + 1
            omega

/-- Python's parsing of a replacement template string. -/
def parseTmpl : List Char → Except String (List TItem)
  | [] => .ok []
  | '\\' :: rest =>
    match rest with
    | [] => .error "bad escape (end of pattern)"
    | 'g' :: rest2 =>
        match rest2 with
        | '<' :: rest3 =>
            match h : splitGt rest3 with
            | some (name, rest4) =>
                if name = ['0'] then (parseTmpl rest4).map (fun items => .grp :: items)
                else .error "invalid group reference"
            | none => .error "missing >, unterminated name"
        | _ => .error "missing <"
    | c :: rest2 =>
      if c = '0' then
        let ds := (rest2.takeWhile isOctDigit).take 2
        let rest3 := rest2.drop ds.length
        let n := ds.foldl (fun a d => a * 8 + (d.toNat - 48)) 0
        (parseTmpl rest3).map (fun items => .lit [Char.ofNat n] :: items)
      else if c.isDigit then .error "invalid group reference"
      else match escMap c with
        | some e => (parseTmpl rest2).map (fun items => .lit [e] :: items)
        | none =>
            if c.isAlpha then .error ("bad escape " ++ String.mk ['\\', c])
            else (parseTmpl rest2).map (fun items => .lit ['\\', c] :: items)
  | c :: rest => (parseTmpl rest).map (fun items => .lit [c] :: items)
  termination_by s => s.length
  decreasing_by
  all_goals simp_wf
  · have := splitGt_length h
    simp at this
    omega
  · have : (rest2.drop ((rest2.takeWhile isOctDigit).take 2).length).length ≤ rest2.length := by
      rw [List.length_drop]
      omega
    omega
  all_goals omega

/-- Instantiates a parsed template at a concrete match (the whole matched
text stands in for group 0). -/
def expandTmpl (items : List TItem) (matched : List Char) : List Char :=
  items.flatMap (fun it => match it with | .lit cs => cs | .grp => matched)

/-! ### `re.sub` -/

/-- The remainder left by the match Python's engine selects at the front of
`s`, if any: the first candidate in backtracking preference order. -/
def reFirst (r : RE) (s : List Char) : Option (List Char) := (msplits r s).head?

/-- The text consumed by a match of remainder `rem` at the front of `s`. -/
def matchedOf (s rem : List Char) : List Char := s.take (s.length - rem.length)

/-- The scanning loop of `re.sub` over an already-parsed template: at each
position try a match; on a (non-empty) match emit the expanded template and
continue after the match, otherwise copy one character and move on.  A
zero-width match emits the expansion and advances one character. -/
def reSubAux (r : RE) (items : List TItem) : List Char → List Char
  | [] =>
      match (msplits r []).head? with
      | some _ => expandTmpl items []
      | none => []
  | c :: rest =>
      match (msplits r (c :: rest)).head? with
      | some rem =>
          if h : rem.length < rest.length + 1 then
            expandTmpl items (matchedOf (c :: rest) rem) ++ reSubAux r items rem
          else
            expandTmpl items (matchedOf (c :: rest) rem) ++ c :: reSubAux r items rest
      | none => c :: reSubAux r items rest
  termination_by s => s.length
  decreasing_by
  all_goals simp_wf <;> omega

/-- `re.sub(r, tmpl, s)` for a string template: the template is parsed
eagerly (its errors surface even when nothing matches), then the scan runs. -/
def pySub (r : RE) (tmpl : List Char) (s : List Char) : Except String (List Char) :=
  match parseTmpl tmpl with
  | .error e => .error e
  | .ok items => .ok (reSubAux r items s)

/-! ### `re.escape` and the two placeholder patterns -/

/-- The characters `re.escape` prefixes with a backslash. -/
def reSpecialChars : List Char :=
  ['(', ')', '[', ']', '\x7b', '\x7d', '?', '*', '+', '-', '|', '^', '$',
   '\\', '.', '&', '~', '#', ' ', '\t', '\n', '\r', '\x0b', '\x0c']

/-- `re.escape`: every special character becomes backslash-plus-itself. -/
def reEscape (s : List Char) : List Char :=
  s.flatMap (fun c => if reSpecialChars.contains c then ['\\', c] else [c])

/-- A literal character of a pattern compiled with `re.IGNORECASE`:
both sides are compared lowercased. -/
def litRE (c : Char) : RE := .sym (fun x => x.toLower == c.toLower)

/-- `\s`. -/
def wsRE : RE := .sym (fun c => isPySpace c)

/-- `[^>]` under `re.IGNORECASE` (the engine lowercases the input character
before testing it against the class). -/
def nonGtRE : RE := .sym (fun c => !(c.toLower == '>'))

/-- `<\/?[^>]+>`: one markup-tag fragment. -/
def tagRE : RE :=
  .seq (litRE '<')
    (.seq (.alt (litRE '/') .eps)
      (.seq (.seq nonGtRE (.star nonGtRE)) (litRE '>')))

/-- Compilation of an escaped literal fragment (the output of `re.escape`
spliced into the pattern): `\c` and a plain character both denote the
literal character, case-insensitively under `re.IGNORECASE`. -/
def escSeqRE : List Char → RE
  | [] => .eps
  | c :: rest =>
      if c = '\\' then
        match rest with
        | [] => .seq (litRE c) (escSeqRE [])
        | c2 :: rest2 => .seq (litRE c2) (escSeqRE rest2)
      else .seq (litRE c) (escSeqRE rest)

/-- The case-insensitive literal chain for a key, character by character. -/
def keyRE : List Char → RE
  | [] => .eps
  | c :: rest => .seq (litRE c) (keyRE rest)

/-- Shared tail of both patterns:
`\s*(?:<\/?[^>]+>)*\s*` KEY `\s*(?:<\/?[^>]+>)*\s*\}\}`. -/
def patTail (k : List Char) : RE :=
  .seq (.star wsRE)
    (.seq (.star tagRE)
      (.seq (.star wsRE)
        (.seq (escSeqRE (reEscape k))
          (.seq (.star wsRE)
            (.seq (.star tagRE)
              (.seq (.star wsRE)
                (.seq (litRE '\x7d') (litRE '\x7d'))))))))

/-- `pattern_double`: `\{\{\s*(?:<\/?[^>]+>)*\s*KEY\s*(?:<\/?[^>]+>)*\s*\}\}`
with `KEY = re.escape(key)`, compiled with `re.IGNORECASE`. -/
def patDouble (k : List Char) : RE :=
  .seq (litRE '\x7b') (.seq (litRE '\x7b') (patTail k))

/-- `pattern_single`: the same with a single opening `\{`. -/
def patSingle (k : List Char) : RE :=
  .seq (litRE '\x7b') (patTail k)

/-! ### The substitution loop over the data dictionary -/

/-- The body of `for key, value in data.items()`: substitute the double
pattern, then the single pattern, on the progressively updated content. -/
def applyKey (k v : List Char) (s : List Char) : Except String (List Char) :=
  match pySub (patDouble k) v s with
  | .error e => .error e
  | .ok s1 => pySub (patSingle k) v s1

/-- The whole per-file loop: keys are processed in dictionary (insertion)
order, each seeing the content produced by its predecessors. -/
def fillXml (data : List (List Char × List Char)) (s : List Char) :
    Except String (List Char) :=
  match data with
  | [] => .ok s
  | (k, v) :: rest =>
      match applyKey k v s with
      | .error e => .error e
      | .ok s' => fillXml rest s'

/-! ### Strict UTF-8 (the `encoding='utf-8'` reads and writes)

`open(path, 'r', encoding='utf-8')` followed by `.read()` fails with
`UnicodeDecodeError` exactly when the bytes are not well-formed UTF-8; the
code catches any such failure and skips the file.  The decoder below is the
standard strict one (no overlong forms, no surrogates, max U+10FFFF). -/

def utf8Cont (b : Nat) : Bool := 0x80 ≤ b && b ≤ 0xBF

def utf8Decode? : List Nat → Option (List Char)
  | [] => some []
  | b :: rest =>
    if b < 0x80 then (utf8Decode? rest).map (fun cs => Char.ofNat b :: cs)
    else if 0xC2 ≤ b && b ≤ 0xDF then
      match rest with
      | b2 :: rest2 =>
          if utf8Cont b2 then
            (utf8Decode? rest2).map
              (fun cs => Char.ofNat ((b - 0xC0) * 64 + (b2 - 0x80)) :: cs)
          else none
      | [] => none
    else if 0xE0 ≤ b && b ≤ 0xEF then
      match rest with
      | b2 :: b3 :: rest3 =>
          if (if b = 0xE0 then 0xA0 ≤ b2 && b2 ≤ 0xBF
              else if b = 0xED then 0x80 ≤ b2 && b2 ≤ 0x9F
              else utf8Cont b2) && utf8Cont b3 then
            (utf8Decode? rest3).map
              (fun cs =>
                Char.ofNat ((b - 0xE0) * 4096 + (b2 - 0x80) * 64 + (b3 - 0x80)) :: cs)
          else none
      | _ => none
    else if 0xF0 ≤ b && b ≤ 0xF4 then
      match rest with
      | b2 :: b3 :: b4 :: rest4 =>
          if (if b = 0xF0 then 0x90 ≤ b2 && b2 ≤ 0xBF
              else if b = 0xF4 then 0x80 ≤ b2 && b2 ≤ 0x8F
              else utf8Cont b2) && utf8Cont b3 && utf8Cont b4 then
            (utf8Decode? rest4).map
              (fun cs =>
                Char.ofNat ((b - 0xF0) * 262144 + (b2 - 0x80) * 4096 +
                  (b3 - 0x80) * 64 + (b4 - 0x80)) :: cs)
          else none
      | _ => none
    else none

def utf8EncodeChar (c : Char) : List Nat :=
  let n := c.toNat
  if n < 0x80 then [n]
  else if n < 0x800 then [0xC0 + n / 64, 0x80 + n % 64]
  else if n < 0x10000 then [0xE0 + n / 4096, 0x80 + (n / 64) % 64, 0x80 + n % 64]
  else [0xF0 + n / 262144, 0x80 + (n / 4096) % 64, 0x80 + (n / 64) % 64, 0x80 + n % 64]

def utf8Encode (cs : List Char) : List Nat := cs.flatMap utf8EncodeChar

/-! ### The part scanner and repacker (lines 68–115 of `bot.py`)

A container entry is a relative path plus its byte content.  The scan walks
the `word/` subtree, considers only files whose lowercased name ends in
`.xml`, skips (keeps byte-identical) everything that does not decode as
strict UTF-8, and rewrites a decoded file only when the substitution loop
changed its text; the repack then stores every entry at its original
relative path. -/

structure Entry where
  relpath : List Char
  bytes : List Nat
deriving DecidableEq

def startsWithL (s pre : List Char) : Bool := s.take pre.length == pre

def endsWithL (s suf : List Char) : Bool := s.drop (s.length - suf.length) == suf

/-- Whether the walk over `word/` visits this entry and its name passes
`fname.lower().endswith('.xml')`. -/
def isScannedPath (path : List Char) : Bool :=
  startsWithL path ['w', 'o', 'r', 'd', '/'] &&
    endsWithL (path.map Char.toLower) ['.', 'x', 'm', 'l']

/-- One iteration of the scan/substitute/rewrite loop for a single entry. -/
def processEntry (data : List (List Char × List Char)) (e : Entry) :
    Except String Entry :=
  if isScannedPath e.relpath then
    match utf8Decode? e.bytes with
    | none => .ok e
    | some xml =>
        match fillXml data xml with
        | .error err => .error err
        | .ok newXml =>
            .ok (if newXml = xml then e else ⟨e.relpath, utf8Encode newXml⟩)
  else .ok e

/-- The whole tree, processed entry by entry and repacked in place. -/
def repackTree (data : List (List Char × List Char)) :
    List Entry → Except String (List Entry)
  | [] => .ok []
  | e :: rest =>
      match processEntry data e with
      | .error err => .error err
      | .ok e' => (repackTree data rest).map (fun t => e' :: t)

/-! ### `os.path.splitext` (posix) -/

def lastIdxOf : List Char → Char → Option Nat
  | [], _ => none
  | a :: rest, c =>
      match lastIdxOf rest c with
      | some i => some (i + 1)
      | none => if a = c then some 0 else none

/-- The root part of `os.path.splitext(p)`: everything before the last dot
of the basename, unless the basename consists only of leading dots. -/
def splitextRoot (p : List Char) : List Char :=
  let sepIdx : Int := match lastIdxOf p '/' with | some i => (i : Int) | none => -1
  let dotIdx : Int := match lastIdxOf p '.' with | some i => (i : Int) | none => -1
  if sepIdx < dotIdx then
    let fs := (sepIdx + 1).toNat
    if ((p.drop fs).take (dotIdx.toNat - fs)).any (fun c => decide (c ≠ '.')) then
      p.take dotIdx.toNat
    else p
  else p

/-! ### The pipeline control flow of `fill_docx_and_convert`

The function's observable control flow is modelled as a pure function of an
environment that decides the outcome of each primitive operation.  Python
semantics that matter here: the `except Exception: pass` around the
pre-removal of existing outputs swallows removal failures; an exception
raised by `shutil.rmtree` inside `finally` replaces whatever exception the
`try` body was propagating; `except FileNotFoundError` re-raises the
original `FileNotFoundError`, which is a different exception type from the
`RuntimeError` used for a failed conversion. -/

inductive PyExn where
  | extractionErr : PyExn
  | substErr : PyExn
  | ioErr : PyExn
  | rmtreeErr : PyExn
  | fileNotFoundErr : PyExn
  | runtimeErr : List Char → PyExn
deriving DecidableEq

structure Env where
  outputDocxExists : Bool
  removeDocxOk : Bool
  outputPdfExists : Bool
  removePdfOk : Bool
  extractOk : Bool
  substOk : Bool
  repackOk : Bool
  rmtreeOk : Bool
  libreofficeFound : Bool
  returncode : Int
  stdoutText : List Char
  stderrText : List Char
  pdfCreated : Bool

structure Trace where
  rmtreeCalls : Nat
  removeDocxAttempted : Bool
  removeDocxFailed : Bool
  removePdfAttempted : Bool
  removePdfFailed : Bool
  logs : List (List Char)
deriving DecidableEq

/-- Message of the `RuntimeError` raised on a failed conversion. -/
def renderMsg (code : Int) : List Char :=
  "Ошибка конвертации через LibreOffice (код ".data ++ (toString code).data ++
    "). Посмотрите stderr выше.".data

def toolMissingMsg : List Char :=
  "Команда 'libreoffice' не найдена. Убедитесь, что LibreOffice установлен.".data

/-- The `try` body of lines 64–115: unpack, substitute, repack. -/
def tryBody (env : Env) : Except PyExn Unit :=
  if !env.extractOk then .error .extractionErr
  else if !env.substOk then .error .substErr
  else if !env.repackOk then .error .ioErr
  else .ok ()

/-- The whole of `fill_docx_and_convert`, as result plus observable trace. -/
def fillDocxAndConvert (env : Env) (outputDocx : List Char) :
    Except PyExn (List Char × List Char) × Trace :=
  let t0 : Trace := ⟨0, false, false, false, false, []⟩
  let t1 := if env.outputDocxExists then
      { t0 with removeDocxAttempted := true, removeDocxFailed := !env.removeDocxOk }
    else t0
  let outputPdf := splitextRoot outputDocx ++ ['.', 'p', 'd', 'f']
  let t2 := if env.outputPdfExists then
      { t1 with removePdfAttempted := true, removePdfFailed := !env.removePdfOk }
    else t1
  let bodyRes := tryBody env
  let t3 := { t2 with rmtreeCalls := t2.rmtreeCalls + 1 }
  let afterFinally : Except PyExn Unit :=
    if env.rmtreeOk then bodyRes else .error .rmtreeErr
  match afterFinally with
  | .error e => (.error e, t3)
  | .ok () =>
      if !env.libreofficeFound then
        (.error .fileNotFoundErr, { t3 with logs := t3.logs ++ [toolMissingMsg] })
      else
        let t4 := { t3 with logs := t3.logs ++
          ["LibreOffice stdout: ".data ++ env.stdoutText,
           "LibreOffice stderr: ".data ++ env.stderrText] }
        if env.returncode ≠ 0 || !env.pdfCreated then
          (.error (.runtimeErr (renderMsg env.returncode)),
           { t4 with logs := t4.logs ++ [renderMsg env.returncode] })
        else
          (.ok (outputDocx, outputPdf), t4)

instance {ε α : Type _} [DecidableEq ε] [DecidableEq α] : DecidableEq (Except ε α) := fun a b =>
  match a, b with
  | .error e, .error f =>
      if h : e = f then .isTrue (by rw [h]) else .isFalse (fun hh => by cases hh; exact h rfl)
  | .error _, .ok _ => .isFalse (fun hh => by cases hh)
  | .ok _, .error _ => .isFalse (fun hh => by cases hh)
  | .ok x, .ok y =>
      if h : x = y then .isTrue (by rw [h]) else .isFalse (fun hh => by cases hh; exact h rfl)

/-! ### Concrete environments used in witnesses and counterexamples -/

def p0 : List Char := "/tmp/out.docx".data

def envAllOk : Env :=
  { outputDocxExists := false, removeDocxOk := true, outputPdfExists := false,
    removePdfOk := true, extractOk := true, substOk := true, repackOk := true,
    rmtreeOk := true, libreofficeFound := true, returncode := 0,
    stdoutText := [], stderrText := [], pdfCreated := true }

/-! ### Pipeline-level claims -/

/-- C9: on success, `fill_docx_and_convert` returns exactly the pair of the
destination document path and the sibling path with the extension replaced
by `.pdf` (the `os.path.splitext`-derived location, line 55), for every
environment and destination path. -/
theorem pipeline_returns_derived_pdf_path (env : Env) (out : List Char)
    (r : List Char × List Char)
    (h : (fillDocxAndConvert env out).1 = .ok r) :
    r = (out, splitextRoot out ++ ['.', 'p', 'd', 'f']) := by
  simp only [fillDocxAndConvert] at h
  split at h
  · simp at h
  · split at h
    · simp at h
    · split at h
      · simp at h
      · simp at h
        exact h.symm

theorem pipeline_returns_derived_pdf_path_witness :
    (fillDocxAndConvert envAllOk p0).1 = .ok (p0, "/tmp/out.pdf".data) ∧
      (p0, "/tmp/out.pdf".data) = (p0, splitextRoot p0 ++ ['.', 'p', 'd', 'f']) :=
  ⟨by decide, pipeline_returns_derived_pdf_path envAllOk p0 _ (by decide)⟩

/-- C3 (counterexample): when the repack step fails and the `finally`-block
`shutil.rmtree` also fails, the surfaced exception is the cleanup error, not
the primary `IOError` — the cleanup failure masks the primary error. -/
theorem cleanup_failure_masks_primary_error :
    (fillDocxAndConvert { envAllOk with repackOk := false, rmtreeOk := false } p0).1 =
        .error .rmtreeErr ∧
      PyExn.rmtreeErr ≠ PyExn.ioErr ∧
      (fillDocxAndConvert { envAllOk with repackOk := false, rmtreeOk := true } p0).1 =
        .error .ioErr := by
  refine ⟨by rfl, by decide, by rfl⟩

/-- C3 (amended): the temporary directory removal is invoked exactly once on
every exit path of the unpack/substitute/repack phase (and the conversion
phase runs only after it), but a cleanup failure is not tolerated: it
propagates to the caller, replacing any primary error. -/
theorem cleanup_runs_once_and_failure_propagates (env : Env) (out : List Char) :
    (fillDocxAndConvert env out).2.rmtreeCalls = 1 ∧
      (env.rmtreeOk = false → (fillDocxAndConvert env out).1 = .error .rmtreeErr) := by
  constructor
  · simp only [fillDocxAndConvert]
    split <;> split <;> (try split) <;> simp [apply_ite Trace.rmtreeCalls]
  · intro hrm
    simp [fillDocxAndConvert, hrm]

theorem cleanup_runs_once_and_failure_propagates_witness :
    (fillDocxAndConvert { envAllOk with rmtreeOk := false } p0).2.rmtreeCalls = 1 ∧
      (fillDocxAndConvert { envAllOk with rmtreeOk := false } p0).1 = .error .rmtreeErr :=
  ⟨(cleanup_runs_once_and_failure_propagates { envAllOk with rmtreeOk := false } p0).1,
   (cleanup_runs_once_and_failure_propagates { envAllOk with rmtreeOk := false } p0).2 rfl⟩

/-- C5 (counterexample): when the renderer exits non-zero, the raised error
carries only the exit code (`renderMsg`), not the captured stderr text —
the captured diagnostics go to the log, they are not attached to the
exception that reaches the caller. -/
theorem conversion_error_lacks_captured_stderr :
    (fillDocxAndConvert
        { envAllOk with returncode := 1, stderrText := "BOOM".data, pdfCreated := false }
        p0).1 = .error (.runtimeErr (renderMsg 1)) ∧
      ¬ "BOOM".data <:+: renderMsg 1 ∧
      ("LibreOffice stderr: ".data ++ "BOOM".data) ∈
        (fillDocxAndConvert
          { envAllOk with returncode := 1, stderrText := "BOOM".data, pdfCreated := false }
          p0).2.logs := by
  refine ⟨by rfl, by decide, by decide⟩

/-- C5 (amended): once the earlier stages succeed, the renderer invocation
succeeds exactly when the process exits with status zero and the expected
`.pdf` file exists; otherwise a `RuntimeError` is raised whose message
carries the exit code (the captured stdout/stderr are logged, not attached),
and a missing `libreoffice` executable surfaces as the re-raised
`FileNotFoundError`, an error kind distinct from the conversion error. -/
theorem renderer_success_iff_and_error_kinds (env : Env) (out : List Char)
    (hex : env.extractOk = true) (hsu : env.substOk = true)
    (hre : env.repackOk = true) (hrm : env.rmtreeOk = true) :
    (env.libreofficeFound = true →
        ((∃ pr, (fillDocxAndConvert env out).1 = .ok pr) ↔
          (env.returncode = 0 ∧ env.pdfCreated = true))) ∧
      (env.libreofficeFound = false →
        (fillDocxAndConvert env out).1 = .error .fileNotFoundErr) ∧
      (env.libreofficeFound = true → (env.returncode ≠ 0 ∨ env.pdfCreated = false) →
        (fillDocxAndConvert env out).1 = .error (.runtimeErr (renderMsg env.returncode)) ∧
          ("LibreOffice stderr: ".data ++ env.stderrText) ∈
            (fillDocxAndConvert env out).2.logs) ∧
      (∀ m, PyExn.fileNotFoundErr ≠ PyExn.runtimeErr m) := by
  refine ⟨?_, ?_, ?_, ?_⟩
  · intro hfound
    constructor
    · rintro ⟨pr, hpr⟩
      by_cases h1 : env.returncode = 0
      · by_cases h2 : env.pdfCreated = true
        · exact ⟨h1, h2⟩
        · rw [Bool.not_eq_true] at h2
          simp [fillDocxAndConvert, tryBody, hex, hsu, hre, hrm, hfound, h1, h2] at hpr
      · simp [fillDocxAndConvert, tryBody, hex, hsu, hre, hrm, hfound, h1] at hpr
    · rintro ⟨h1, h2⟩
      exact ⟨(out, splitextRoot out ++ ['.', 'p', 'd', 'f']),
        by simp [fillDocxAndConvert, tryBody, hex, hsu, hre, hrm, hfound, h1, h2]⟩
  · intro hfound
    simp [fillDocxAndConvert, tryBody, hex, hsu, hre, hrm, hfound]
  · intro hfound hfail
    constructor
    · rcases hfail with h | h <;>
        simp [fillDocxAndConvert, tryBody, hex, hsu, hre, hrm, hfound, h]
    · rcases hfail with h | h <;>
        simp [fillDocxAndConvert, tryBody, hex, hsu, hre, hrm, hfound, h]
  · intro m h
    cases h

theorem renderer_success_iff_and_error_kinds_witness :
    ((∃ pr, (fillDocxAndConvert envAllOk p0).1 = .ok pr) ↔
        ((0 : Int) = 0 ∧ true = true)) ∧
      (fillDocxAndConvert { envAllOk with libreofficeFound := false } p0).1 =
        .error .fileNotFoundErr :=
  ⟨by
    have h := (renderer_success_iff_and_error_kinds envAllOk p0 rfl rfl rfl rfl).1 rfl
    exact h,
   by
    have h := (renderer_success_iff_and_error_kinds
      { envAllOk with libreofficeFound := false } p0 rfl rfl rfl rfl).2.1 rfl
    exact h⟩

/-- C8 (counterexample): with a pre-existing destination file whose removal
fails, the pipeline nevertheless succeeds — the failure of `os.remove` on
the destination is swallowed by `except Exception: pass` (lines 50–54), not
surfaced to the caller. -/
theorem preexisting_removal_failure_swallowed :
    (fillDocxAndConvert { envAllOk with outputDocxExists := true, removeDocxOk := false }
        p0).2.removeDocxFailed = true ∧
      (fillDocxAndConvert { envAllOk with outputDocxExists := true, removeDocxOk := false }
        p0).1 = .ok (p0, "/tmp/out.pdf".data) := by
  refine ⟨by rfl, by rfl⟩

/-- C8 (amended): a failure to create/write the destination container
propagates to the caller as the `IOError` of the repack step, but a failure
to remove a pre-existing destination file is silently ignored: the
pipeline's result never depends on whether that removal succeeded. -/
theorem repack_failure_propagates_removal_swallowed (env : Env) (out : List Char) :
    (env.extractOk = true → env.substOk = true → env.repackOk = false →
        env.rmtreeOk = true → (fillDocxAndConvert env out).1 = .error .ioErr) ∧
      (∀ b, (fillDocxAndConvert env out).1 =
        (fillDocxAndConvert { env with removeDocxOk := b } out).1) := by
  constructor
  · intro hex hsu hre hrm
    simp [fillDocxAndConvert, tryBody, hex, hsu, hre, hrm]
  · intro b
    rcases env with ⟨f1, f2, f3, f4, f5, f6, f7, f8, f9, f10, f11, f12, f13⟩
    cases f5 <;> cases f6 <;> cases f7 <;> cases f8 <;> cases f9 <;> cases f13 <;>
      simp [fillDocxAndConvert, tryBody, apply_ite Prod.fst]

theorem repack_failure_propagates_removal_swallowed_witness :
    (fillDocxAndConvert { envAllOk with repackOk := false } p0).1 = .error .ioErr ∧
      (fillDocxAndConvert { envAllOk with outputDocxExists := true } p0).1 =
        (fillDocxAndConvert
          { envAllOk with outputDocxExists := true, removeDocxOk := false } p0).1 :=
  ⟨(repack_failure_propagates_removal_swallowed { envAllOk with repackOk := false } p0).1
      rfl rfl rfl rfl,
   (repack_failure_propagates_removal_swallowed
      { envAllOk with outputDocxExists := true } p0).2 false⟩

/-! ### C6: opaque pass-through and rewrite-only-if-changed -/

/-- C6: an entry of the scanned subtree that fails strict UTF-8 decoding is
classified opaque — processing it returns it unchanged rather than raising;
a textual entry whose substitution left the content unchanged is also passed
through byte-identical; and processing never moves an entry: the repacked
tree has exactly the original relative paths in order. -/
theorem scanner_opaque_and_unchanged_frame (data : List (List Char × List Char)) :
    (∀ e : Entry, isScannedPath e.relpath = true → utf8Decode? e.bytes = none →
        processEntry data e = .ok e) ∧
      (∀ (e : Entry) (xml : List Char), utf8Decode? e.bytes = some xml →
        fillXml data xml = .ok xml → processEntry data e = .ok e) ∧
      (∀ e e' : Entry, processEntry data e = .ok e' → e'.relpath = e.relpath) ∧
      (∀ tree tree' : List Entry, repackTree data tree = .ok tree' →
        tree'.map Entry.relpath = tree.map Entry.relpath) := by
  have hpath : ∀ e e' : Entry, processEntry data e = .ok e' → e'.relpath = e.relpath := by
    intro e e' h
    unfold processEntry at h
    split at h
    · split at h
      · cases h; rfl
      · split at h
        · cases h
        · cases h
          split <;> rfl
    · cases h; rfl
  refine ⟨?_, ?_, hpath, ?_⟩
  · intro e hscan hdec
    unfold processEntry
    rw [if_pos hscan, hdec]
  · intro e xml hdec hfill
    by_cases hscan : isScannedPath e.relpath = true
    · simp [processEntry, hscan, hdec, hfill]
    · simp [processEntry, hscan]
  · intro tree
    induction tree with
    | nil => intro tree' h; cases h; rfl
    | cons e rest ih =>
        intro tree' h
        unfold repackTree at h
        split at h
        · cases h
        · rename_i e' he'
          cases hr : repackTree data rest with
          | error err => rw [hr] at h; cases h
          | ok t =>
              rw [hr] at h
              cases h
              simp only [List.map_cons]
              rw [hpath e e' he', ih t hr]

theorem scanner_opaque_and_unchanged_frame_witness :
    processEntry [("NAME".data, "X".data)] ⟨"word/media/pic.xml".data, [255]⟩ =
        .ok ⟨"word/media/pic.xml".data, [255]⟩ ∧
      processEntry [] ⟨"word/document.xml".data, [60, 97, 62]⟩ =
        .ok ⟨"word/document.xml".data, [60, 97, 62]⟩ :=
  ⟨(scanner_opaque_and_unchanged_frame [("NAME".data, "X".data)]).1
      ⟨"word/media/pic.xml".data, [255]⟩ (by decide) (by decide),
   (scanner_opaque_and_unchanged_frame []).2.1
      ⟨"word/document.xml".data, [60, 97, 62]⟩ ['<', 'a', '>'] (by decide) rfl⟩

/-! ### Basic facts about the matching engine -/

theorem seq_mem_iff {a b : RE} {s x : List Char} :
    x ∈ msplits (.seq a b) s ↔ ∃ m ∈ msplits a s, x ∈ msplits b m := by
  rw [msplits_seq]; exact List.mem_flatMap

theorem sym_sound {p : Char → Bool} {s x : List Char} (h : x ∈ msplits (.sym p) s) :
    ∃ c, s = c :: x ∧ p c = true := by
  cases s with
  | nil => rw [msplits_sym_nil] at h; cases h
  | cons c rest =>
      rw [msplits_sym_cons] at h
      by_cases hp : p c
      · rw [if_pos hp] at h
        rw [List.mem_singleton] at h
        exact ⟨c, by rw [h], hp⟩
      · rw [if_neg hp] at h; cases h

theorem sym_mem {p : Char → Bool} {c : Char} {rest : List Char} (h : p c = true) :
    rest ∈ msplits (.sym p) (c :: rest) := by
  rw [msplits_sym_cons, if_pos h]
  exact List.mem_singleton.mpr rfl

theorem star_sound_step {r : RE} {s x : List Char} (h : x ∈ msplits (.star r) s) :
    x = s ∨ ∃ m ∈ msplits r s, m.length < s.length ∧ x ∈ msplits (.star r) m := by
  rw [msplits_star] at h
  rcases List.mem_append.mp h with h | h
  · rcases List.mem_flatMap.mp h with ⟨m, hm, hx⟩
    rcases List.mem_filter.mp hm with ⟨hm1, hm2⟩
    exact Or.inr ⟨m, hm1, by simpa using hm2, hx⟩
  · exact Or.inl (List.mem_singleton.mp h)

theorem star_mem_base (r : RE) (s : List Char) : s ∈ msplits (.star r) s := by
  rw [msplits_star]
  exact List.mem_append.mpr (Or.inr (List.mem_singleton.mpr rfl))

theorem star_mem_step {r : RE} {s m x : List Char} (hm : m ∈ msplits r s)
    (hlen : m.length < s.length) (hx : x ∈ msplits (.star r) m) :
    x ∈ msplits (.star r) s := by
  rw [msplits_star]
  refine List.mem_append.mpr (Or.inl (List.mem_flatMap.mpr ⟨m, ?_, hx⟩))
  exact List.mem_filter.mpr ⟨hm, by simpa using hlen⟩

theorem symStar_sound {p : Char → Bool} :
    ∀ (s : List Char), ∀ x ∈ msplits (.star (.sym p)) s,
      ∃ i, i ≤ s.length ∧ x = s.drop i ∧ ∀ c ∈ s.take i, p c = true := by
  intro s
  induction s with
  | nil =>
      intro x hx
      rcases star_sound_step hx with rfl | ⟨m, hm, _, _⟩
      · exact ⟨0, by simp⟩
      · rw [msplits_sym_nil] at hm; cases hm
  | cons c rest ih =>
      intro x hx
      rcases star_sound_step hx with rfl | ⟨m, hm, _, hx2⟩
      · exact ⟨0, by simp⟩
      · obtain ⟨d, hd, hp⟩ := sym_sound hm
        obtain ⟨hdc, hmr⟩ : d = c ∧ m = rest := by
          rw [List.cons.injEq] at hd; exact ⟨hd.1.symm, hd.2.symm⟩
        subst hdc; subst hmr
        obtain ⟨i, hi, hxd, hall⟩ := ih x hx2
        refine ⟨i + 1, by simp; omega, by simpa using hxd, ?_⟩
        intro e he
        rw [List.take_succ_cons] at he
        rcases List.mem_cons.mp he with rfl | he2
        · exact hp
        · exact hall e he2

theorem symStar_mem {p : Char → Bool} {w rest : List Char}
    (hw : ∀ c ∈ w, p c = true) :
    rest ∈ msplits (.star (.sym p)) (w ++ rest) := by
  induction w with
  | nil => simpa using star_mem_base (.sym p) rest
  | cons c w' ih =>
      refine star_mem_step (m := w' ++ rest) ?_ (by simp) ?_
      · exact sym_mem (hw c (List.mem_cons_self c w'))
      · exact ih (fun d hd => hw d (List.mem_cons_of_mem c hd))

theorem seq_sym_fail {p : Char → Bool} (r : RE) {c : Char} (rest : List Char)
    (h : p c = false) : msplits (.seq (.sym p) r) (c :: rest) = [] := by
  simp [msplits_seq, msplits_sym_cons, h]

theorem seq_sym_nil {p : Char → Bool} (r : RE) :
    msplits (.seq (.sym p) r) [] = [] := by
  simp [msplits_seq, msplits_sym_nil]

theorem head_eq_of_all {l : List (List Char)} {v : List Char}
    (hne : v ∈ l) (hall : ∀ x ∈ l, x = v) : l.head? = some v := by
  cases l with
  | nil => cases hne
  | cons a t =>
      have := hall a (List.mem_cons_self a t)
      rw [List.head?, this]

/-! ### Character facts for the concrete classes of the two patterns -/

theorem pySpace_toLower_self : ∀ c ∈ pySpaceChars, c.toLower = c := by decide

theorem isPySpace_toLower {c : Char} (h : isPySpace c = true) :
    c.toLower = c := by
  rw [isPySpace] at h
  have hm : c ∈ pySpaceChars := by simpa using h
  exact pySpace_toLower_self c hm

theorem pySpace_ne : ∀ c ∈ pySpaceChars,
    c ≠ '<' ∧ c ≠ '>' ∧ c ≠ '\x7b' ∧ c ≠ '\x7d' ∧ c ≠ '/' := by decide

theorem isPySpace_ne {c : Char} (h : isPySpace c = true) :
    c ≠ '<' ∧ c ≠ '>' ∧ c ≠ '\x7b' ∧ c ≠ '\x7d' ∧ c ≠ '/' := by
  rw [isPySpace] at h
  have hm : c ∈ pySpaceChars := by simpa using h
  exact pySpace_ne c hm

theorem isPySpace_of_toLower {c : Char} (h : isPySpace c = true) :
    isPySpace c.toLower = true := by
  rw [isPySpace_toLower h]; exact h

/-! ### Well-formedness predicates for the placeholder shape -/

/-- A run of whitespace characters (what `\s*` consumes). -/
def WsRun (w : List Char) : Prop := ∀ c ∈ w, isPySpace c = true

/-- A character that can be part of a key occurrence without colliding with
the delimiters, the whitespace class or the tag brackets of the pattern
(all conditions are on the lowercased character because the pattern is
compiled with `re.IGNORECASE`). -/
def GoodChar (c : Char) : Prop :=
  isPySpace c.toLower = false ∧ c.toLower ≠ '\x7b' ∧ c.toLower ≠ '\x7d' ∧
    c.toLower ≠ '<' ∧ c.toLower ≠ '>'

/-- A usable substitution key: nonempty and made of good characters. -/
def GoodKey (k : List Char) : Prop := k ≠ [] ∧ ∀ c ∈ k, GoodChar c

/-- A well-formed markup-tag fragment `<…>`: nonempty interior without `>`
and without the substitution delimiters. -/
def IsTag (g : List Char) : Prop :=
  ∃ inner, g = '<' :: (inner ++ ['>']) ∧ inner ≠ [] ∧
    ∀ c ∈ inner, c.toLower ≠ '>' ∧ c.toLower ≠ '\x7b' ∧ c.toLower ≠ '\x7d'

theorem goodChar_not_space {c : Char} (h : GoodChar c) : isPySpace c = false := by
  by_contra hc
  rw [Bool.not_eq_false] at hc
  have := isPySpace_of_toLower hc
  rw [h.1] at this
  cases this

/-! ### Literal templates expand to themselves -/

theorem expandTmpl_lits (v m : List Char) :
    expandTmpl (v.map fun c => TItem.lit [c]) m = v := by
  induction v with
  | nil => rfl
  | cons c rest ih =>
      rw [List.map_cons, expandTmpl, List.flatMap_cons]
      rw [expandTmpl] at ih
      rw [ih]
      rfl

theorem parseTmpl_noBackslash : ∀ (v : List Char), '\\' ∉ v →
    parseTmpl v = .ok (v.map fun c => TItem.lit [c]) := by
  intro v
  induction v with
  | nil => intro _; simp [parseTmpl]
  | cons c rest ih =>
      intro h
      have hc : c ≠ '\\' := fun hh => h (hh ▸ List.mem_cons_self c rest)
      have hrest : '\\' ∉ rest := fun hh => h (List.mem_cons_of_mem _ hh)
      rw [parseTmpl.eq_def]
      split
      · rename_i heq; simp at heq
      · rename_i heq
        rw [List.cons.injEq] at heq
        exact absurd heq.1 hc
      · rename_i c' rest' heq
        rw [List.cons.injEq] at heq
        obtain ⟨rfl, rfl⟩ := heq
        rw [ih hrest]
        rfl

theorem pySub_noBackslash {v : List Char} (r : RE) (s : List Char)
    (h : '\\' ∉ v) :
    pySub r v s = .ok (reSubAux r (v.map fun c => TItem.lit [c]) s) := by
  rw [pySub, parseTmpl_noBackslash v h]

/-! ### The escaped key compiles to a case-insensitive literal chain -/

theorem msplits_lit_cons (c d : Char) (rest : List Char) :
    msplits (litRE c) (d :: rest) =
      if (d.toLower == c.toLower) then [rest] else [] := by
  rw [litRE, msplits_sym_cons]

theorem msplits_lit_nil (c : Char) : msplits (litRE c) [] = [] := by
  rw [litRE, msplits_sym_nil]

theorem escSeqRE_nil : escSeqRE [] = .eps := rfl

theorem escSeqRE_esc (c : Char) (rest : List Char) :
    escSeqRE ('\\' :: c :: rest) = .seq (litRE c) (escSeqRE rest) := rfl

theorem escSeqRE_plain {c : Char} (rest : List Char) (hc : c ≠ '\\') :
    escSeqRE (c :: rest) = .seq (litRE c) (escSeqRE rest) := by
  rw [escSeqRE.eq_def]
  dsimp only
  rw [if_neg hc]

theorem escSeqRE_reEscape : ∀ k : List Char, escSeqRE (reEscape k) = keyRE k := by
  intro k
  induction k with
  | nil => rfl
  | cons c rest ih =>
      rw [keyRE, reEscape, List.flatMap_cons]
      rw [show (rest.flatMap fun c =>
        if reSpecialChars.contains c then ['\\', c] else [c]) = reEscape rest from rfl]
      by_cases hs : reSpecialChars.contains c
      · rw [if_pos hs, List.cons_append, List.cons_append, List.nil_append]
        rw [escSeqRE_esc, ih]
      · rw [if_neg hs, List.cons_append, List.nil_append]
        have hc : c ≠ '\\' := by
          intro hh
          rw [hh] at hs
          exact hs (by decide)
        rw [escSeqRE_plain (reEscape rest) hc, ih]

theorem keyRE_exact : ∀ (k t u : List Char),
    t.map Char.toLower = k.map Char.toLower →
    msplits (keyRE k) (t ++ u) = [u] := by
  intro k
  induction k with
  | nil =>
      intro t u ht
      have : t = [] := by
        have := congrArg List.length ht
        simpa using this
      rw [this, List.nil_append, keyRE, msplits_eps]
  | cons k0 krest ih =>
      intro t u ht
      cases t with
      | nil => simp at ht
      | cons t0 trest =>
          rw [List.map_cons, List.map_cons, List.cons.injEq] at ht
          rw [keyRE, List.cons_append, msplits_seq, msplits_lit_cons]
          rw [show (t0.toLower == k0.toLower) = true from by
            rw [ht.1]; exact beq_self_eq_true _]
          rw [if_pos rfl, List.flatMap_cons, List.flatMap_nil, List.append_nil]
          exact ih trest u ht.2

theorem keyRE_fail {k0 c : Char} (krest u : List Char)
    (h : (c.toLower == k0.toLower) = false) :
    msplits (keyRE (k0 :: krest)) (c :: u) = [] := by
  rw [keyRE, litRE]
  exact seq_sym_fail _ u h

/-- C10: `re.escape(key)` spliced into the pattern makes the key a chain of
case-insensitive literal characters: the escaped fragment compiles to
exactly the literal chain `keyRE key`; a text matches that chain exactly
when it is the key itself up to letter case (consuming nothing else), and
any first-character mismatch yields no match at all — the key is never
interpreted as pattern syntax. -/
theorem escaped_key_literal (k : List Char) :
    escSeqRE (reEscape k) = keyRE k ∧
      (∀ t u : List Char, t.map Char.toLower = k.map Char.toLower →
        msplits (escSeqRE (reEscape k)) (t ++ u) = [u]) ∧
      (∀ (c : Char) (u : List Char) (k0 : Char) (krest : List Char),
        k = k0 :: krest → (c.toLower == k0.toLower) = false →
        msplits (escSeqRE (reEscape k)) (c :: u) = []) := by
  refine ⟨escSeqRE_reEscape k, ?_, ?_⟩
  · intro t u ht
    rw [escSeqRE_reEscape k]
    exact keyRE_exact k t u ht
  · intro c u k0 krest hk h
    rw [escSeqRE_reEscape k, hk]
    exact keyRE_fail krest u h

theorem escaped_key_literal_witness :
    msplits (escSeqRE (reEscape "a+b".data)) ("A+B".data ++ "rest".data) =
        ["rest".data] ∧
      msplits (escSeqRE (reEscape "a+b".data)) ('x' :: "b".data) = [] ∧
      reEscape "a+b".data = "a\\+b".data :=
  ⟨(escaped_key_literal "a+b".data).2.1 "A+B".data "rest".data (by decide),
   (escaped_key_literal "a+b".data).2.2 'x' "b".data 'a' "+b".data rfl (by decide),
   by decide⟩

/-! ### Characterizing what the stars of the pattern can consume -/

theorem drop_within {p : Char → Bool} {w rest : List Char} {i : Nat}
    (hblock : ∀ c, rest.head? = some c → p c = false)
    (hall : ∀ c ∈ (w ++ rest).take i, p c = true)
    (hi : i ≤ (w ++ rest).length) :
    i ≤ w.length ∧ (w ++ rest).drop i = w.drop i ++ rest := by
  have hiw : i ≤ w.length := by
    by_contra hgt
    push_neg at hgt
    cases rest with
    | nil =>
        rw [List.append_nil] at hi
        omega
    | cons r0 rest' =>
        have hr0 : r0 ∈ (w ++ r0 :: rest').take i := by
          rw [List.take_append_eq_append_take]
          refine List.mem_append.mpr (Or.inr ?_)
          cases hh : i - w.length with
          | zero => omega
          | succ n => rw [List.take_succ_cons]; exact List.mem_cons_self _ _
        have hcontra := hall r0 hr0
        rw [hblock r0 rfl] at hcontra
        cases hcontra
  refine ⟨hiw, ?_⟩
  rw [List.drop_append_eq_append_drop]
  rw [show i - w.length = 0 from by omega, List.drop_zero]

theorem wsStar_shape {w rest x : List Char}
    (hblock : ∀ c, rest.head? = some c → isPySpace c = false)
    (hx : x ∈ msplits (.star wsRE) (w ++ rest)) :
    ∃ i, i ≤ w.length ∧ x = w.drop i ++ rest := by
  unfold wsRE at hx
  obtain ⟨i, hi, hxd, hall⟩ := symStar_sound (w ++ rest) x hx
  obtain ⟨hiw, hdrop⟩ := drop_within (p := fun c => isPySpace c) hblock hall hi
  exact ⟨i, hiw, by rw [hxd, hdrop]⟩

/-! ### One tag fragment -/

theorem beq_toLower_false_of_ne {c d : Char} (h : c.toLower ≠ d.toLower) :
    (c.toLower == d.toLower) = false := by
  exact beq_eq_false_iff_ne.mpr h

theorem tagRE_fail {s : List Char}
    (h : ∀ c rest, s = c :: rest → c.toLower ≠ '<') :
    msplits tagRE s = [] := by
  unfold tagRE
  cases s with
  | nil => exact seq_sym_nil _
  | cons c rest =>
      unfold litRE
      exact seq_sym_fail _ rest (beq_toLower_false_of_ne (h c rest rfl))

/-- The interior `[^>]+>` of a tag: on `v ++ '>' :: u` with a `>`-free `v`,
the only possible match remainder is `u` (and it is reached iff `v ≠ []`). -/
theorem plusGt_sound {v u x : List Char}
    (hv : ∀ c ∈ v, c.toLower ≠ '>')
    (h : x ∈ msplits (.seq (.seq nonGtRE (.star nonGtRE)) (litRE '>')) (v ++ '>' :: u)) :
    x = u := by
  rcases seq_mem_iff.mp h with ⟨m, hm, hx⟩
  rcases seq_mem_iff.mp hm with ⟨m0, hm0, hmstar⟩
  obtain ⟨c, hc, hp⟩ := sym_sound (p := fun c => !(c.toLower == '>')) hm0
  cases v with
  | nil =>
      rw [List.nil_append, List.cons.injEq] at hc
      rw [← hc.1] at hp
      simp at hp
  | cons v0 v' =>
      rw [List.cons_append, List.cons.injEq] at hc
      obtain ⟨rfl, rfl⟩ := hc
      obtain ⟨i, hi, hxd, hall⟩ := symStar_sound _ _ hmstar
      have hblock : ∀ c, ('>' :: u).head? = some c → (!(c.toLower == '>')) = false := by
        intro c hhd
        rw [List.head?] at hhd
        cases hhd
        simp
      obtain ⟨hiv, hdrop⟩ := drop_within hblock hall hi
      rw [hxd, hdrop] at hx
      by_cases hilt : i < v'.length
      · rw [List.drop_eq_getElem_cons hilt] at hx
        obtain ⟨d, hd, hq⟩ := sym_sound hx
        rw [List.cons_append, List.cons.injEq] at hd
        have hmem : v'[i] ∈ v0 :: v' := List.mem_cons_of_mem _ (List.getElem_mem hilt)
        have := hv _ hmem
        rw [← hd.1] at hq
        rw [litRE] at *
        exact absurd hq (by simpa using this)
      · have : i = v'.length := by omega
        rw [this, List.drop_length, List.nil_append] at hx
        obtain ⟨d, hd, _⟩ := sym_sound hx
        rw [List.cons.injEq] at hd
        exact hd.2.symm

theorem tagRE_sound {g u x : List Char} (hg : IsTag g)
    (h : x ∈ msplits tagRE (g ++ u)) : x = u := by
  obtain ⟨inner, rfl, hne, hinner⟩ := hg
  rw [List.cons_append, List.append_assoc] at h
  unfold tagRE at h
  rcases seq_mem_iff.mp h with ⟨m1, hm1, hrest⟩
  obtain ⟨c, hc, _⟩ := sym_sound (p := fun x => x.toLower == '<'.toLower) hm1
  rw [List.cons.injEq] at hc
  obtain ⟨-, rfl⟩ := hc
  rcases seq_mem_iff.mp hrest with ⟨m2, hm2, hplus⟩
  rw [msplits_alt, List.mem_append] at hm2
  rcases hm2 with hm2 | hm2
  · -- the optional '/' consumed one character
    obtain ⟨d, hd, _⟩ := sym_sound (p := fun x => x.toLower == '/'.toLower) hm2
    cases inner with
    | nil => exact absurd rfl hne
    | cons i0 inner' =>
        rw [List.cons_append, List.cons.injEq] at hd
        obtain ⟨rfl, rfl⟩ := hd
        rw [List.singleton_append] at hplus
        exact plusGt_sound (fun c hc => (hinner c (List.mem_cons_of_mem _ hc)).1) hplus
  · rw [msplits_eps, List.mem_singleton] at hm2
    subst hm2
    rw [List.singleton_append] at hplus
    exact plusGt_sound (fun c hc => (hinner c hc).1) hplus

theorem nonGt_true {c : Char} (h : c.toLower ≠ '>') :
    (!(c.toLower == '>')) = true := by
  rw [beq_eq_false_iff_ne.mpr h]
  rfl

theorem tagRE_mem {g u : List Char} (hg : IsTag g) :
    u ∈ msplits tagRE (g ++ u) := by
  obtain ⟨inner, rfl, hne, hinner⟩ := hg
  unfold tagRE
  rw [List.cons_append, List.append_assoc, List.singleton_append]
  refine seq_mem_iff.mpr ⟨inner ++ '>' :: u, ?_, ?_⟩
  · unfold litRE
    exact sym_mem (by simp)
  · refine seq_mem_iff.mpr ⟨inner ++ '>' :: u, ?_, ?_⟩
    · rw [msplits_alt]
      refine List.mem_append.mpr (Or.inr ?_)
      rw [msplits_eps, List.mem_singleton]
    · cases inner with
      | nil => exact absurd rfl hne
      | cons i0 inner' =>
          refine seq_mem_iff.mpr ⟨'>' :: u, ?_, ?_⟩
          · refine seq_mem_iff.mpr ⟨inner' ++ '>' :: u, ?_, ?_⟩
            · unfold nonGtRE
              rw [List.cons_append]
              exact sym_mem (nonGt_true (hinner i0 (List.mem_cons_self _ _)).1)
            · unfold nonGtRE
              exact symStar_mem
                (fun c hc => nonGt_true (hinner c (List.mem_cons_of_mem _ hc)).1)
          · unfold litRE
            exact sym_mem (by simp)

/-! ### Star over tag fragments -/

theorem tagStar_sound : ∀ (T : List (List Char)) {rest : List Char},
    (∀ g ∈ T, IsTag g) →
    (∀ c rest', rest = c :: rest' → c.toLower ≠ '<') →
    ∀ x ∈ msplits (.star tagRE) (T.flatten ++ rest),
      ∃ j, j ≤ T.length ∧ x = (T.drop j).flatten ++ rest := by
  intro T
  induction T with
  | nil =>
      intro rest _ hrest x hx
      rw [List.flatten_nil, List.nil_append] at hx
      rcases star_sound_step hx with rfl | ⟨m, hm, _, _⟩
      · exact ⟨0, by simp⟩
      · rw [tagRE_fail hrest] at hm; cases hm
  | cons g T' ih =>
      intro rest hT hrest x hx
      rw [List.flatten_cons, List.append_assoc] at hx
      rcases star_sound_step hx with rfl | ⟨m, hm, _, hx2⟩
      · exact ⟨0, by simp [List.flatten_cons, List.append_assoc]⟩
      · have hm' := tagRE_sound (hT g (List.mem_cons_self _ _)) hm
        subst hm'
        obtain ⟨j, hj, hxd⟩ :=
          ih (fun g hg => hT g (List.mem_cons_of_mem _ hg)) hrest x hx2
        exact ⟨j + 1, by simp; omega, by simpa using hxd⟩

theorem tagStar_mem : ∀ (T : List (List Char)) (rest : List Char),
    (∀ g ∈ T, IsTag g) →
    rest ∈ msplits (.star tagRE) (T.flatten ++ rest) := by
  intro T
  induction T with
  | nil => intro rest _; simpa using star_mem_base tagRE rest
  | cons g T' ih =>
      intro rest hT
      rw [List.flatten_cons, List.append_assoc]
      refine star_mem_step (m := T'.flatten ++ rest)
        (tagRE_mem (hT g (List.mem_cons_self _ _))) ?_
        (ih rest (fun g hg => hT g (List.mem_cons_of_mem _ hg)))
      obtain ⟨inner, heq, -, -⟩ := hT g (List.mem_cons_self _ _)
      rw [heq]
      simp <;> omega

/-! ### Whitespace facts needed for branch analysis -/

theorem ws_not_lt {c : Char} (h : isPySpace c = true) : c.toLower ≠ '<' := by
  rw [isPySpace_toLower h]; exact (isPySpace_ne h).1

theorem ws_not_rb {c : Char} (h : isPySpace c = true) : c.toLower ≠ '\x7d' := by
  rw [isPySpace_toLower h]; exact (isPySpace_ne h).2.2.2.1

theorem drop_head_cases (l rest : List Char) (i : Nat) :
    (l.drop i ++ rest = rest) ∨
      ∃ c tail, l.drop i ++ rest = c :: tail ∧ c ∈ l := by
  by_cases h : i < l.length
  · right
    rw [List.drop_eq_getElem_cons h, List.cons_append]
    exact ⟨l[i], _, rfl, List.getElem_mem h⟩
  · left
    rw [List.drop_eq_nil_of_le (by omega), List.nil_append]

theorem wsRun_drop {w : List Char} (i : Nat) (hw : WsRun w) : WsRun (w.drop i) :=
  fun c hc => hw c (List.mem_of_mem_drop hc)

theorem tags_head_lt {g : List Char} (T' : List (List Char)) (hg : IsTag g) :
    ∃ tail, ((g :: T').flatten) = '<' :: tail := by
  obtain ⟨inner, rfl, -, -⟩ := hg
  exact ⟨inner ++ ['>'] ++ T'.flatten, by simp⟩

/-! ### The combined `\s*(?:<\/?[^>]+>)*\s*` segment -/

theorem head_block_of_cons {P : Char → Prop} {rest : List Char}
    (h : ∀ c rest', rest = c :: rest' → P c) :
    ∀ c, rest.head? = some c → P c := by
  intro c hc
  cases rest with
  | nil => cases hc
  | cons a t =>
      rw [List.head?_cons] at hc
      have ha : a = c := by injection hc
      subst ha
      exact h a t rfl

/-- A tag star applied where no `<` can start an iteration consumes nothing. -/
theorem tagStar_stuck {s x : List Char}
    (hs : ∀ c rest', s = c :: rest' → c.toLower ≠ '<')
    (hx : x ∈ msplits (.star tagRE) s) : x = s := by
  rcases star_sound_step hx with rfl | ⟨m, hm, _, _⟩
  · rfl
  · rw [tagRE_fail hs] at hm; cases hm

theorem wsTagWs_sound {w w' rest : List Char} {T : List (List Char)}
    (hw : WsRun w) (hT : ∀ g ∈ T, IsTag g) (hw' : WsRun w')
    (hrest : ∀ c rest', rest = c :: rest' → isPySpace c = false ∧ c.toLower ≠ '<')
    {m1 m2 m3 : List Char}
    (h1 : m1 ∈ msplits (.star wsRE) (w ++ (T.flatten ++ (w' ++ rest))))
    (h2 : m2 ∈ msplits (.star tagRE) m1)
    (h3 : m3 ∈ msplits (.star wsRE) m2) :
    m3 = rest ∨
      ∃ c rest3, m3 = c :: rest3 ∧ (isPySpace c = true ∨ c.toLower = '<') := by
  have hblockRest : ∀ c, rest.head? = some c → isPySpace c = false :=
    head_block_of_cons (fun c rest' heq => (hrest c rest' heq).1)
  cases T with
  | nil =>
      rw [List.flatten_nil, List.nil_append, ← List.append_assoc] at h1
      have hwsAll : WsRun (w ++ w') := fun c hc => by
        rcases List.mem_append.mp hc with hc | hc
        · exact hw c hc
        · exact hw' c hc
      obtain ⟨i, hi, rfl⟩ := wsStar_shape hblockRest h1
      have h2' := tagStar_stuck (s := (w ++ w').drop i ++ rest)
        (fun d rest' heq => by
          rcases drop_head_cases (w ++ w') rest i with hdc | ⟨e, tail, hdc, hemem⟩
          · rw [hdc] at heq
            exact (hrest d rest' heq).2
          · rw [hdc, List.cons.injEq] at heq
            exact heq.1 ▸ ws_not_lt (hwsAll e hemem)) h2
      rw [h2'] at h3
      obtain ⟨i2, hi2, rfl⟩ := wsStar_shape (w := (w ++ w').drop i) hblockRest h3
      rw [List.drop_drop]
      rcases drop_head_cases (w ++ w') rest _ with hdc | ⟨c, tail, hdc, hcmem⟩
      · exact Or.inl hdc
      · exact Or.inr ⟨c, tail, hdc, Or.inl (hwsAll c hcmem)⟩
  | cons g T' =>
      obtain ⟨tailT, hTflat⟩ := tags_head_lt T' (hT g (List.mem_cons_self _ _))
      have hblockTags : ∀ c, ((g :: T').flatten ++ (w' ++ rest)).head? = some c →
          isPySpace c = false := by
        intro c hc
        rw [hTflat, List.cons_append, List.head?_cons] at hc
        cases hc
        decide
      obtain ⟨i, hi, rfl⟩ := wsStar_shape hblockTags h1
      rcases drop_head_cases w ((g :: T').flatten ++ (w' ++ rest)) i with
        hdc | ⟨c, tail, hdc, hcmem⟩
      · -- the first whitespace run is fully consumed
        rw [hdc] at h2
        obtain ⟨j, hj, rfl⟩ := tagStar_sound (g :: T') hT
          (fun d rest' heq => by
            cases w' with
            | nil =>
                rw [List.nil_append] at heq
                exact (hrest d rest' heq).2
            | cons w0 w'' =>
                rw [List.cons_append, List.cons.injEq] at heq
                exact heq.1 ▸ ws_not_lt (hw' w0 (List.mem_cons_self _ _)))
          m2 h2
        by_cases hjlt : j < (g :: T').length
        · -- stopped among the tags: the head is '<' and stays '<'
          have hne : ((g :: T').drop j) ≠ [] := by
            intro hh
            rw [List.drop_eq_nil_iff] at hh
            omega
          obtain ⟨g2, T2, hgT⟩ := List.exists_cons_of_ne_nil hne
          have hg2 : IsTag g2 := by
            have hmem : g2 ∈ (g :: T').drop j := by
              rw [hgT]; exact List.mem_cons_self _ _
            exact hT g2 (List.mem_of_mem_drop hmem)
          obtain ⟨tail2, hflat2⟩ := tags_head_lt T2 hg2
          rw [hgT, hflat2, List.cons_append] at h3
          rcases star_sound_step h3 with rfl | ⟨m, hm, _, _⟩
          · exact Or.inr ⟨'<', _, rfl, Or.inr (by decide)⟩
          · unfold wsRE at hm
            obtain ⟨d, hd, hp⟩ := sym_sound hm
            rw [List.cons.injEq] at hd
            rw [← hd.1] at hp
            rw [show isPySpace '<' = false from by decide] at hp
            cases hp
        · -- all tags consumed
          have hjeq : j = (g :: T').length := by omega
          rw [hjeq, List.drop_length, List.flatten_nil, List.nil_append] at h3
          obtain ⟨i3, hi3, rfl⟩ := wsStar_shape (w := w') hblockRest h3
          rcases drop_head_cases w' rest i3 with hdc2 | ⟨c, tail, hdc2, hcmem⟩
          · exact Or.inl hdc2
          · exact Or.inr ⟨c, tail, hdc2, Or.inl (hw' c hcmem)⟩
      · -- stopped inside the first whitespace run
        have hcws : isPySpace c = true := hw c hcmem
        rw [hdc] at h2
        have h2' := tagStar_stuck (s := c :: tail)
          (fun d rest' heq => by
            rw [List.cons.injEq] at heq
            exact heq.1 ▸ ws_not_lt hcws) h2
        rw [h2', ← hdc] at h3
        obtain ⟨i4, hi4, rfl⟩ := wsStar_shape (w := w.drop i) hblockTags h3
        rw [List.drop_drop]
        rcases drop_head_cases w ((g :: T').flatten ++ (w' ++ rest)) _ with
          hdc2 | ⟨c2, tail2, hdc2, hc2mem⟩
        · rw [hdc2, hTflat]
          exact Or.inr ⟨'<', _, rfl, Or.inr (by decide)⟩
        · exact Or.inr ⟨c2, tail2, hdc2, Or.inl (hw c2 hc2mem)⟩

/-! ### The full pattern tail on a well-formed placeholder body -/

theorem ws_not_lb {c : Char} (h : isPySpace c = true) : c.toLower ≠ '\x7b' := by
  rw [isPySpace_toLower h]; exact (isPySpace_ne h).2.2.1

theorem wsStar_mem {w rest : List Char} (hw : WsRun w) :
    rest ∈ msplits (.star wsRE) (w ++ rest) := by
  unfold wsRE; exact symStar_mem hw

theorem goodChar_of_toLower_eq {c d : Char} (h : c.toLower = d.toLower)
    (hd : GoodChar d) : GoodChar c := by
  unfold GoodChar at *
  rw [h]
  exact hd

/-- The placeholder body between the opening and closing delimiters:
whitespace, tags, whitespace, the key occurrence, whitespace, tags,
whitespace, then the two closing braces. -/
def midShape (t w1 w2 w3 w4 : List Char) (T1 T2 : List (List Char)) : List Char :=
  w1 ++ (T1.flatten ++ (w2 ++ (t ++ (w3 ++ (T2.flatten ++ (w4 ++ ['\x7d', '\x7d']))))))

/-- The intact delimited form `{{ … }}`. -/
def dblForm (t w1 w2 w3 w4 : List Char) (T1 T2 : List (List Char)) : List Char :=
  '\x7b' :: '\x7b' :: midShape t w1 w2 w3 w4 T1 T2

/-- The degraded form `{ … }}` with a single opening brace. -/
def degForm (t w1 w2 w3 w4 : List Char) (T1 T2 : List (List Char)) : List Char :=
  '\x7b' :: midShape t w1 w2 w3 w4 T1 T2

theorem goodKey_variant {k t : List Char} (hk : GoodKey k)
    (ht : t.map Char.toLower = k.map Char.toLower) :
    t ≠ [] ∧ ∀ c ∈ t, GoodChar c := by
  have hlen : t.length = k.length := by
    have := congrArg List.length ht
    simpa using this
  constructor
  · intro hnil
    apply hk.1
    rw [hnil] at hlen
    exact List.eq_nil_of_length_eq_zero hlen.symm
  · intro c hc
    obtain ⟨i, hi, hci⟩ := List.mem_iff_getElem.mp hc
    have hik : i < k.length := by omega
    have hieq : t[i].toLower = k[i].toLower := by
      have h1 := congrArg (fun l => l[i]?) ht
      simp only [List.getElem?_map] at h1
      rw [List.getElem?_eq_getElem hi,
        List.getElem?_eq_getElem hik] at h1
      simpa using h1
    rw [← hci]
    exact goodChar_of_toLower_eq hieq (hk.2 _ (List.getElem_mem hik))

theorem patTail_sound {k t w1 w2 w3 w4 : List Char} {T1 T2 : List (List Char)}
    (hk : GoodKey k) (ht : t.map Char.toLower = k.map Char.toLower)
    (hw1 : WsRun w1) (hw2 : WsRun w2) (hw3 : WsRun w3) (hw4 : WsRun w4)
    (hT1 : ∀ g ∈ T1, IsTag g) (hT2 : ∀ g ∈ T2, IsTag g) :
    ∀ x ∈ msplits (patTail k) (midShape t w1 w2 w3 w4 T1 T2), x = [] := by
  obtain ⟨htne, htgood⟩ := goodKey_variant hk ht
  obtain ⟨t0, t', rfl⟩ := List.exists_cons_of_ne_nil htne
  have ht0 : GoodChar t0 := htgood t0 (List.mem_cons_self _ _)
  obtain ⟨k0, k', rfl⟩ := List.exists_cons_of_ne_nil hk.1
  have hk0 : GoodChar k0 := hk.2 k0 (List.mem_cons_self _ _)
  intro x hx
  unfold patTail at hx
  rcases seq_mem_iff.mp hx with ⟨m1, h1, hx⟩
  rcases seq_mem_iff.mp hx with ⟨m2, h2, hx⟩
  rcases seq_mem_iff.mp hx with ⟨m3, h3, hx⟩
  rcases seq_mem_iff.mp hx with ⟨m4, h4, hx⟩
  rcases seq_mem_iff.mp hx with ⟨m5, h5, hx⟩
  rcases seq_mem_iff.mp hx with ⟨m6, h6, hx⟩
  rcases seq_mem_iff.mp hx with ⟨m7, h7, hx⟩
  rcases seq_mem_iff.mp hx with ⟨m8, h8, hx⟩
  unfold midShape at h1
  have hfirst := @wsTagWs_sound w1 w2
    ((t0 :: t') ++ (w3 ++ (T2.flatten ++ (w4 ++ ['\x7d', '\x7d'])))) T1
    hw1 hT1 hw2
    (fun c rest' heq => by
      rw [List.cons_append, List.cons.injEq] at heq
      exact heq.1 ▸ ⟨goodChar_not_space ht0, ht0.2.2.2.1⟩)
    _ _ _ h1 h2 h3
  rcases hfirst with h3eq | ⟨c, rest3, h3eq, hbad⟩
  swap
  · -- whitespace or '<' at the key position: the key atoms cannot match
    have hfalse : (c.toLower == k0.toLower) = false := by
      refine beq_eq_false_iff_ne.mpr ?_
      rcases hbad with hws | hlt
      · rw [isPySpace_toLower hws]
        intro heq
        have hcontra := hk0.1
        rw [← heq] at hcontra
        rw [hcontra] at hws
        cases hws
      · rw [hlt]
        exact fun heq => hk0.2.2.2.1 heq.symm
    rw [h3eq, escSeqRE_reEscape, keyRE_fail _ _ hfalse] at h4
    cases h4
  · rw [h3eq, escSeqRE_reEscape,
      keyRE_exact (k0 :: k') (t0 :: t') _ ht, List.mem_singleton] at h4
    subst h4
    have hsecond := @wsTagWs_sound w3 w4 ['\x7d', '\x7d'] T2 hw3 hT2 hw4
      (fun c rest' heq => by
        rw [List.cons.injEq] at heq
        exact heq.1 ▸ ⟨by decide, by decide⟩) _ _ _ h5 h6 h7
    rcases hsecond with h7eq | ⟨c, rest7, h7eq, hbad⟩
    swap
    · have hfalse : (c.toLower == '\x7d'.toLower) = false := by
        refine beq_eq_false_iff_ne.mpr ?_
        rw [show ('\x7d'.toLower) = '\x7d' from by decide]
        rcases hbad with hws | hlt
        · exact ws_not_rb hws
        · rw [hlt]; decide
      rw [h7eq, msplits_lit_cons, hfalse] at h8
      simp at h8
    · rw [h7eq, msplits_lit_cons,
        show ('\x7d'.toLower == '\x7d'.toLower) = true from by decide,
        if_pos rfl, List.mem_singleton] at h8
      subst h8
      rw [msplits_lit_cons,
        show ('\x7d'.toLower == '\x7d'.toLower) = true from by decide,
        if_pos rfl, List.mem_singleton] at hx
      exact hx

theorem patTail_mem {k t w1 w2 w3 w4 : List Char} {T1 T2 : List (List Char)}
    (ht : t.map Char.toLower = k.map Char.toLower)
    (hw1 : WsRun w1) (hw2 : WsRun w2) (hw3 : WsRun w3) (hw4 : WsRun w4)
    (hT1 : ∀ g ∈ T1, IsTag g) (hT2 : ∀ g ∈ T2, IsTag g) :
    [] ∈ msplits (patTail k) (midShape t w1 w2 w3 w4 T1 T2) := by
  unfold patTail midShape
  refine seq_mem_iff.mpr ⟨_, wsStar_mem hw1, ?_⟩
  refine seq_mem_iff.mpr ⟨_, tagStar_mem T1 _ hT1, ?_⟩
  refine seq_mem_iff.mpr ⟨_, wsStar_mem hw2, ?_⟩
  rw [escSeqRE_reEscape]
  refine seq_mem_iff.mpr
    ⟨w3 ++ (T2.flatten ++ (w4 ++ ['\x7d', '\x7d'])), ?_, ?_⟩
  · rw [keyRE_exact k t _ ht]
    exact List.mem_singleton.mpr rfl
  · refine seq_mem_iff.mpr ⟨_, wsStar_mem hw3, ?_⟩
    refine seq_mem_iff.mpr ⟨_, tagStar_mem T2 _ hT2, ?_⟩
    refine seq_mem_iff.mpr ⟨_, wsStar_mem hw4, ?_⟩
    refine seq_mem_iff.mpr ⟨['\x7d'], ?_, ?_⟩
    · unfold litRE; exact sym_mem (by decide)
    · unfold litRE; exact sym_mem (by decide)

/-- The head character of a well-formed placeholder body is never an
opening brace. -/
theorem midShape_head {k t w1 w2 w3 w4 : List Char} {T1 T2 : List (List Char)}
    (hk : GoodKey k) (ht : t.map Char.toLower = k.map Char.toLower)
    (hw1 : WsRun w1) (hw2 : WsRun w2)
    (hT1 : ∀ g ∈ T1, IsTag g) :
    ∃ c tail, midShape t w1 w2 w3 w4 T1 T2 = c :: tail ∧ c.toLower ≠ '\x7b' := by
  obtain ⟨htne, htgood⟩ := goodKey_variant hk ht
  unfold midShape
  cases w1 with
  | cons a w1' => exact ⟨a, _, rfl, ws_not_lb (hw1 a (List.mem_cons_self _ _))⟩
  | nil =>
      rw [List.nil_append]
      cases T1 with
      | cons g T1' =>
          obtain ⟨tl, htl⟩ := tags_head_lt T1' (hT1 g (List.mem_cons_self _ _))
          rw [htl, List.cons_append]
          exact ⟨'<', _, rfl, by decide⟩
      | nil =>
          rw [List.flatten_nil, List.nil_append]
          cases w2 with
          | cons a w2' => exact ⟨a, _, rfl, ws_not_lb (hw2 a (List.mem_cons_self _ _))⟩
          | nil =>
              rw [List.nil_append]
              obtain ⟨t0, t', rfl⟩ := List.exists_cons_of_ne_nil htne
              exact ⟨t0, _, rfl, (htgood t0 (List.mem_cons_self _ _)).2.1⟩

/-- No character of a well-formed placeholder body lowercases to `{`. -/
theorem midShape_no_open {k t w1 w2 w3 w4 : List Char} {T1 T2 : List (List Char)}
    (hk : GoodKey k) (ht : t.map Char.toLower = k.map Char.toLower)
    (hw1 : WsRun w1) (hw2 : WsRun w2) (hw3 : WsRun w3) (hw4 : WsRun w4)
    (hT1 : ∀ g ∈ T1, IsTag g) (hT2 : ∀ g ∈ T2, IsTag g) :
    ∀ c ∈ midShape t w1 w2 w3 w4 T1 T2, c.toLower ≠ '\x7b' := by
  obtain ⟨-, htgood⟩ := goodKey_variant hk ht
  have htags : ∀ (T : List (List Char)), (∀ g ∈ T, IsTag g) →
      ∀ c ∈ T.flatten, c.toLower ≠ '\x7b' := by
    intro T hT c hc
    obtain ⟨g, hgmem, hcg⟩ := List.mem_flatten.mp hc
    obtain ⟨inner, rfl, -, hinner⟩ := hT g hgmem
    rcases List.mem_cons.mp hcg with rfl | hcg
    · decide
    · rcases List.mem_append.mp hcg with hcg | hcg
      · exact (hinner c hcg).2.1
      · rw [List.mem_singleton] at hcg
        rw [hcg]; decide
  intro c hc
  unfold midShape at hc
  rcases List.mem_append.mp hc with hc | hc
  · exact ws_not_lb (hw1 c hc)
  rcases List.mem_append.mp hc with hc | hc
  · exact htags T1 hT1 c hc
  rcases List.mem_append.mp hc with hc | hc
  · exact ws_not_lb (hw2 c hc)
  rcases List.mem_append.mp hc with hc | hc
  · exact (htgood c hc).2.1
  rcases List.mem_append.mp hc with hc | hc
  · exact ws_not_lb (hw3 c hc)
  rcases List.mem_append.mp hc with hc | hc
  · exact htags T2 hT2 c hc
  rcases List.mem_append.mp hc with hc | hc
  · exact ws_not_lb (hw4 c hc)
  · rcases List.mem_cons.mp hc with rfl | hc
    · decide
    · rw [List.mem_singleton] at hc
      rw [hc]; decide

theorem patDouble_whole {k t w1 w2 w3 w4 : List Char} {T1 T2 : List (List Char)}
    (hk : GoodKey k) (ht : t.map Char.toLower = k.map Char.toLower)
    (hw1 : WsRun w1) (hw2 : WsRun w2) (hw3 : WsRun w3) (hw4 : WsRun w4)
    (hT1 : ∀ g ∈ T1, IsTag g) (hT2 : ∀ g ∈ T2, IsTag g) :
    (msplits (patDouble k) (dblForm t w1 w2 w3 w4 T1 T2)).head? = some [] := by
  apply head_eq_of_all
  · unfold patDouble dblForm
    refine seq_mem_iff.mpr ⟨'\x7b' :: midShape t w1 w2 w3 w4 T1 T2, ?_,
      seq_mem_iff.mpr ⟨midShape t w1 w2 w3 w4 T1 T2, ?_,
        patTail_mem ht hw1 hw2 hw3 hw4 hT1 hT2⟩⟩
    · unfold litRE; exact sym_mem (by decide)
    · unfold litRE; exact sym_mem (by decide)
  · intro x hx
    unfold patDouble dblForm at hx
    rcases seq_mem_iff.mp hx with ⟨a, ha, hx⟩
    obtain ⟨c, hc, -⟩ := sym_sound ha
    rw [List.cons.injEq] at hc
    rw [← hc.2] at hx
    rcases seq_mem_iff.mp hx with ⟨b, hb, hx⟩
    obtain ⟨d, hd, -⟩ := sym_sound hb
    rw [List.cons.injEq] at hd
    rw [← hd.2] at hx
    exact patTail_sound hk ht hw1 hw2 hw3 hw4 hT1 hT2 x hx

theorem patSingle_whole {k t w1 w2 w3 w4 : List Char} {T1 T2 : List (List Char)}
    (hk : GoodKey k) (ht : t.map Char.toLower = k.map Char.toLower)
    (hw1 : WsRun w1) (hw2 : WsRun w2) (hw3 : WsRun w3) (hw4 : WsRun w4)
    (hT1 : ∀ g ∈ T1, IsTag g) (hT2 : ∀ g ∈ T2, IsTag g) :
    (msplits (patSingle k) (degForm t w1 w2 w3 w4 T1 T2)).head? = some [] := by
  apply head_eq_of_all
  · unfold patSingle degForm
    refine seq_mem_iff.mpr ⟨midShape t w1 w2 w3 w4 T1 T2, ?_,
      patTail_mem ht hw1 hw2 hw3 hw4 hT1 hT2⟩
    unfold litRE; exact sym_mem (by decide)
  · intro x hx
    unfold patSingle degForm at hx
    rcases seq_mem_iff.mp hx with ⟨a, ha, hx⟩
    obtain ⟨c, hc, -⟩ := sym_sound ha
    rw [List.cons.injEq] at hc
    rw [← hc.2] at hx
    exact patTail_sound hk ht hw1 hw2 hw3 hw4 hT1 hT2 x hx

/-- `pattern_double` cannot match the degraded form: after its first `\{`
consumes the single opening brace, the second `\{` faces the body. -/
theorem patDouble_deg_fail {k t w1 w2 w3 w4 : List Char} {T1 T2 : List (List Char)}
    (hk : GoodKey k) (ht : t.map Char.toLower = k.map Char.toLower)
    (hw1 : WsRun w1) (hw2 : WsRun w2)
    (hT1 : ∀ g ∈ T1, IsTag g) :
    msplits (patDouble k) (degForm t w1 w2 w3 w4 T1 T2) = [] := by
  obtain ⟨c, tail, hmid, hc⟩ := @midShape_head k t w1 w2 w3 w4 T1 T2
    hk ht hw1 hw2 hT1
  unfold patDouble degForm
  rw [hmid, msplits_seq]
  rw [show msplits (litRE '\x7b') ('\x7b' :: c :: tail) = [c :: tail] from by
    rw [msplits_lit_cons]
    rw [show ('\x7b'.toLower == '\x7b'.toLower) = true from by decide, if_pos rfl]]
  rw [List.flatMap_cons, List.flatMap_nil, List.append_nil]
  unfold litRE
  exact seq_sym_fail _ tail (beq_eq_false_iff_ne.mpr (by
    rw [show ('\x7b'.toLower) = '\x7b' from by decide]
    exact hc))

/-! ### A fuel-based mirror of the engine, for concrete evaluation

`msplits` is defined by well-founded recursion, which the kernel cannot
evaluate; `msplitsF` is the same algorithm with a fuel parameter and
structural recursion, and agrees with `msplits` whenever the fuel is at
least `RE.size r * (s.length + 1)`. -/

theorem msplits_length_le : ∀ (r : RE) (s : List Char), ∀ x ∈ msplits r s,
    x.length ≤ s.length := by
  intro r
  induction r with
  | eps =>
      intro s x hx
      rw [msplits_eps, List.mem_singleton] at hx
      rw [hx]
  | sym p =>
      intro s x hx
      obtain ⟨c, heq, -⟩ := sym_sound hx
      rw [heq]
      simp
  | seq a b iha ihb =>
      intro s x hx
      rcases seq_mem_iff.mp hx with ⟨m, hm, hx⟩
      exact le_trans (ihb m x hx) (iha s m hm)
  | alt a b iha ihb =>
      intro s x hx
      rw [msplits_alt, List.mem_append] at hx
      rcases hx with hx | hx
      · exact iha s x hx
      · exact ihb s x hx
  | star r ihr =>
      intro s
      have H : ∀ (n : Nat) (s : List Char), s.length ≤ n →
          ∀ x ∈ msplits (.star r) s, x.length ≤ s.length := by
        intro n
        induction n with
        | zero =>
            intro s hs x hx
            rcases star_sound_step hx with rfl | ⟨m, _, hlt, _⟩
            · exact le_refl _
            · omega
        | succ n ihn =>
            intro s hs x hx
            rcases star_sound_step hx with rfl | ⟨m, hm, hlt, hx2⟩
            · exact le_refl _
            · have h1 := ihr s m hm
              have h2 := ihn m (by omega) x hx2
              omega
      exact H s.length s (le_refl _)

theorem flatMap_congr_mem {α β : Type _} {l : List α} {f g : α → List β}
    (h : ∀ a ∈ l, f a = g a) : l.flatMap f = l.flatMap g := by
  induction l with
  | nil => rfl
  | cons a t ih =>
      rw [List.flatMap_cons, List.flatMap_cons, h a (List.mem_cons_self _ _),
        ih (fun b hb => h b (List.mem_cons_of_mem _ hb))]

theorem RE.size_pos : ∀ r : RE, 1 ≤ r.size := by
  intro r
  cases r <;> simp [RE.size]

def msplitsF : Nat → RE → List Char → List (List Char)
  | 0, _, _ => []
  | _ + 1, .eps, s => [s]
  | _ + 1, .sym _, [] => []
  | _ + 1, .sym p, c :: rest => if p c then [rest] else []
  | f + 1, .seq a b, s => (msplitsF f a s).flatMap (fun m => msplitsF f b m)
  | f + 1, .alt a b, s => msplitsF f a s ++ msplitsF f b s
  | f + 1, .star r, s =>
      ((msplitsF f r s).filter (fun m => decide (m.length < s.length))).flatMap
        (fun m => msplitsF f (.star r) m) ++ [s]

theorem msplitsF_eq : ∀ (f : Nat) (r : RE) (s : List Char),
    RE.size r * (s.length + 1) ≤ f → msplitsF f r s = msplits r s := by
  intro f
  induction f with
  | zero =>
      intro r s h
      have h1 := RE.size_pos r
      have h2 : 1 ≤ RE.size r * (s.length + 1) :=
        Nat.one_le_iff_ne_zero.mpr (by positivity)
      omega
  | succ f ih =>
      intro r s h
      cases r with
      | eps => rw [msplitsF, msplits_eps]
      | sym p =>
          cases s with
          | nil => rw [msplitsF, msplits_sym_nil]
          | cons c rest => rw [msplitsF, msplits_sym_cons]
      | seq a b =>
          rw [msplitsF, msplits_seq]
          rw [ih a s (by
            have : a.size * (s.length + 1) + 1 ≤ (a.size + b.size + 1) * (s.length + 1) := by
              nlinarith [RE.size_pos b]
            rw [show RE.size (.seq a b) = a.size + b.size + 1 from rfl] at h
            omega)]
          refine flatMap_congr_mem ?_
          intro m hm
          have hlen := msplits_length_le a s m hm
          refine ih b m ?_
          have : b.size * (m.length + 1) + 1 ≤ (a.size + b.size + 1) * (s.length + 1) := by
            nlinarith [RE.size_pos a]
          rw [show RE.size (.seq a b) = a.size + b.size + 1 from rfl] at h
          omega
      | alt a b =>
          rw [msplitsF, msplits_alt]
          rw [show RE.size (.alt a b) = a.size + b.size + 1 from rfl] at h
          rw [ih a s (by nlinarith [RE.size_pos b]),
            ih b s (by nlinarith [RE.size_pos a])]
      | star r =>
          rw [msplitsF, msplits_star]
          rw [show RE.size (.star r) = r.size + 1 from rfl] at h
          rw [ih r s (by nlinarith)]
          congr 1
          refine flatMap_congr_mem ?_
          intro m hm
          rw [List.mem_filter] at hm
          have hlt : m.length < s.length := by simpa using hm.2
          refine ih (.star r) m ?_
          rw [show RE.size (.star r) = r.size + 1 from rfl]
          nlinarith

theorem msplits_eval (r : RE) (s : List Char) :
    msplits r s = msplitsF (RE.size r * (s.length + 1)) r s :=
  (msplitsF_eq _ r s (le_refl _)).symm

/-! ### Unfolding the substitution scan -/

theorem reSubAux_nil {r : RE} (items : List TItem) (h : msplits r [] = []) :
    reSubAux r items [] = [] := by
  unfold reSubAux
  rw [h]
  rfl

theorem reSubAux_no_match {r : RE} (items : List TItem) {c : Char} {rest : List Char}
    (h : msplits r (c :: rest) = []) :
    reSubAux r items (c :: rest) = c :: reSubAux r items rest := by
  conv_lhs => rw [reSubAux.eq_def]
  dsimp only
  rw [h]
  rfl

theorem reSubAux_whole {r : RE} (items : List TItem) {c : Char} {rest : List Char}
    (hhead : (msplits r (c :: rest)).head? = some [])
    (hnil : msplits r [] = []) :
    reSubAux r items (c :: rest) = expandTmpl items (c :: rest) := by
  conv_lhs => rw [reSubAux.eq_def]
  dsimp only
  rw [hhead]
  dsimp only
  rw [dif_pos (by simp : ([] : List Char).length < rest.length + 1)]
  rw [matchedOf]
  rw [show (c :: rest).length - ([] : List Char).length = (c :: rest).length from by simp]
  rw [List.take_length, reSubAux_nil items hnil, List.append_nil]

theorem reSubAux_skip_sym {p : Char → Bool} {r2 : RE} (items : List TItem) :
    ∀ s : List Char, (∀ c ∈ s, p c = false) →
      reSubAux (.seq (.sym p) r2) items s = s := by
  intro s
  induction s with
  | nil => intro _; exact reSubAux_nil items (seq_sym_nil _)
  | cons c rest ih =>
      intro h
      rw [reSubAux_no_match items (seq_sym_fail _ rest (h c (List.mem_cons_self _ _)))]
      rw [ih (fun d hd => h d (List.mem_cons_of_mem _ hd))]

theorem tails_never_match {r : RE} (items : List TItem) :
    ∀ s : List Char, (∀ u ∈ s.tails, msplits r u = []) →
      reSubAux r items s = s := by
  intro s
  induction s with
  | nil =>
      intro h
      exact reSubAux_nil items (h [] (by simp))
  | cons c rest ih =>
      intro h
      rw [reSubAux_no_match items (h (c :: rest) (by
        rw [List.tails_cons]; exact List.mem_cons_self _ _))]
      rw [ih (fun u hu => h u (by rw [List.tails_cons]; exact List.mem_cons_of_mem _ hu))]

theorem patDouble_nil (k : List Char) : msplits (patDouble k) [] = [] := by
  unfold patDouble litRE
  exact seq_sym_nil _

theorem patSingle_nil (k : List Char) : msplits (patSingle k) [] = [] := by
  unfold patSingle litRE
  exact seq_sym_nil _

theorem open_brace_p_false {c : Char} (h : c.toLower ≠ '\x7b') :
    (c.toLower == '\x7b'.toLower) = false := by
  rw [show ('\x7b'.toLower) = '\x7b' from by decide]
  exact beq_eq_false_iff_ne.mpr h

/-- Neither pattern can do anything to content without an opening brace. -/
theorem reSubAux_skip_open {k : List Char} (items : List TItem) {s : List Char}
    (hs : ∀ c ∈ s, c.toLower ≠ '\x7b') :
    reSubAux (patDouble k) items s = s ∧ reSubAux (patSingle k) items s = s := by
  constructor
  · unfold patDouble litRE
    exact reSubAux_skip_sym items s (fun c hc => open_brace_p_false (hs c hc))
  · unfold patSingle litRE
    exact reSubAux_skip_sym items s (fun c hc => open_brace_p_false (hs c hc))

/-- C1: for every key, every letter-case variant of it, and every content
consisting of one placeholder, the matcher recognizes exactly the two
shapes the code builds patterns for — the delimited form
`{{ ws tags ws KEY ws tags ws }}` and the degraded form with a single
opening brace — case-insensitively, and substitutes the key's value; on
content containing no opening delimiter at all, neither pattern ever
fires. -/
theorem matcher_two_forms_ci
    (k t v w1 w2 w3 w4 : List Char) (T1 T2 : List (List Char))
    (hk : GoodKey k) (ht : t.map Char.toLower = k.map Char.toLower)
    (hw1 : WsRun w1) (hw2 : WsRun w2) (hw3 : WsRun w3) (hw4 : WsRun w4)
    (hT1 : ∀ g ∈ T1, IsTag g) (hT2 : ∀ g ∈ T2, IsTag g)
    (hv1 : '\\' ∉ v) (hv2 : ∀ c ∈ v, c.toLower ≠ '\x7b') :
    applyKey k v (dblForm t w1 w2 w3 w4 T1 T2) = .ok v ∧
      applyKey k v (degForm t w1 w2 w3 w4 T1 T2) = .ok v ∧
      (∀ s, (∀ c ∈ s, c.toLower ≠ '\x7b') → applyKey k v s = .ok s) := by
  have hsingle_on_v : pySub (patSingle k) v v = .ok v := by
    rw [pySub_noBackslash _ _ hv1]
    rw [(reSubAux_skip_open _ hv2).2]
  refine ⟨?_, ?_, ?_⟩
  · unfold applyKey
    have h1 : pySub (patDouble k) v (dblForm t w1 w2 w3 w4 T1 T2) = .ok v := by
      rw [pySub_noBackslash _ _ hv1]
      rw [show dblForm t w1 w2 w3 w4 T1 T2 =
        '\x7b' :: '\x7b' :: midShape t w1 w2 w3 w4 T1 T2 from rfl]
      rw [reSubAux_whole _ (patDouble_whole hk ht hw1 hw2 hw3 hw4 hT1 hT2)
        (patDouble_nil k)]
      rw [expandTmpl_lits]
    rw [h1]
    exact hsingle_on_v
  · unfold applyKey
    have h1 : pySub (patDouble k) v (degForm t w1 w2 w3 w4 T1 T2) =
        .ok (degForm t w1 w2 w3 w4 T1 T2) := by
      rw [pySub_noBackslash _ _ hv1]
      rw [show degForm t w1 w2 w3 w4 T1 T2 =
        '\x7b' :: midShape t w1 w2 w3 w4 T1 T2 from rfl]
      rw [reSubAux_no_match _ (patDouble_deg_fail hk ht hw1 hw2 hT1)]
      rw [(reSubAux_skip_open _
        (midShape_no_open hk ht hw1 hw2 hw3 hw4 hT1 hT2)).1]
    rw [h1]
    dsimp only
    rw [pySub_noBackslash _ _ hv1]
    rw [show degForm t w1 w2 w3 w4 T1 T2 =
      '\x7b' :: midShape t w1 w2 w3 w4 T1 T2 from rfl]
    rw [reSubAux_whole _ (patSingle_whole hk ht hw1 hw2 hw3 hw4 hT1 hT2)
      (patSingle_nil k)]
    rw [expandTmpl_lits]
  · intro s hs
    unfold applyKey
    rw [pySub_noBackslash _ _ hv1]
    rw [(reSubAux_skip_open _ hs).1]
    dsimp only
    rw [pySub_noBackslash _ _ hv1]
    rw [(reSubAux_skip_open _ hs).2]

instance : DecidablePred GoodChar := fun c =>
  decidable_of_iff (isPySpace c.toLower = false ∧ c.toLower ≠ '\x7b' ∧
    c.toLower ≠ '\x7d' ∧ c.toLower ≠ '<' ∧ c.toLower ≠ '>') Iff.rfl

instance (w : List Char) : Decidable (WsRun w) :=
  decidable_of_iff (∀ c ∈ w, isPySpace c = true) Iff.rfl

instance (k : List Char) : Decidable (GoodKey k) :=
  decidable_of_iff (k ≠ [] ∧ ∀ c ∈ k, GoodChar c) Iff.rfl

theorem matcher_two_forms_ci_witness :
    applyKey "name".data "John".data
        (dblForm "NaMe".data [' '] [] [] [' '] ["<w:p>".data] []) = .ok "John".data ∧
      applyKey "name".data "John".data
        (degForm "NaMe".data [' '] [] [] [' '] ["<w:p>".data] []) = .ok "John".data := by
  have htag : ∀ g ∈ (["<w:p>".data] : List (List Char)), IsTag g := by
    intro g hg
    rw [List.mem_singleton] at hg
    subst hg
    exact ⟨"w:p".data, by decide, by decide, by decide⟩
  have h := matcher_two_forms_ci "name".data "NaMe".data "John".data
    [' '] [] [] [' '] ["<w:p>".data] []
    (by decide) (by decide) (by decide) (by decide) (by decide) (by decide)
    htag (by intro g hg; cases hg) (by decide) (by decide)
  exact ⟨h.1, h.2.1⟩

/-- C4 (counterexample): a placeholder whose key text is itself interrupted
by a markup fragment (`{{NA<w:p>ME}}` for key `NAME`) is NOT recognized:
the substitution loop leaves the content unchanged, because both patterns
demand the key text contiguous between the tag allowances. -/
theorem midkey_tag_not_matched :
    fillXml [("NAME".data, "X".data)] "\x7b\x7bNA<w:p>ME\x7d\x7d".data =
      .ok "\x7b\x7bNA<w:p>ME\x7d\x7d".data := by
  unfold fillXml applyKey
  rw [pySub_noBackslash _ _ (by decide)]
  rw [tails_never_match _ _ (by
    intro u hu
    fin_cases hu <;> (rw [msplits_eval]; decide))]
  dsimp only
  rw [pySub_noBackslash _ _ (by decide)]
  rw [tails_never_match _ _ (by
    intro u hu
    fin_cases hu <;> (rw [msplits_eval]; decide))]
  rfl

/-- C4 (amended): markup-tag fragments are tolerated only between the
delimiters and the key text: for every key and any nonempty lists of
well-formed fragments placed before and after the (contiguous) key
occurrence, the placeholder is still recognized and substituted. -/
theorem split_tags_adjacent_tolerated
    (k t v w1 w2 w3 w4 : List Char) (T1 T2 : List (List Char))
    (hk : GoodKey k) (ht : t.map Char.toLower = k.map Char.toLower)
    (hw1 : WsRun w1) (hw2 : WsRun w2) (hw3 : WsRun w3) (hw4 : WsRun w4)
    (hT1 : ∀ g ∈ T1, IsTag g) (hT2 : ∀ g ∈ T2, IsTag g)
    (hT1ne : T1 ≠ []) (hT2ne : T2 ≠ [])
    (hv1 : '\\' ∉ v) (hv2 : ∀ c ∈ v, c.toLower ≠ '\x7b') :
    applyKey k v (dblForm t w1 w2 w3 w4 T1 T2) = .ok v := by
  unfold applyKey
  have h1 : pySub (patDouble k) v (dblForm t w1 w2 w3 w4 T1 T2) = .ok v := by
    rw [pySub_noBackslash _ _ hv1]
    rw [show dblForm t w1 w2 w3 w4 T1 T2 =
      '\x7b' :: '\x7b' :: midShape t w1 w2 w3 w4 T1 T2 from rfl]
    rw [reSubAux_whole _ (patDouble_whole hk ht hw1 hw2 hw3 hw4 hT1 hT2)
      (patDouble_nil k)]
    rw [expandTmpl_lits]
  rw [h1]
  dsimp only
  rw [pySub_noBackslash _ _ hv1]
  rw [(reSubAux_skip_open _ hv2).2]

theorem split_tags_adjacent_tolerated_witness :
    applyKey "NAME".data "MV TEST".data
        (dblForm "name".data [] [] [] [] ["<w:r>".data] ["<w:t>".data]) =
      .ok "MV TEST".data := by
  have htag1 : ∀ g ∈ (["<w:r>".data] : List (List Char)), IsTag g := by
    intro g hg
    rw [List.mem_singleton] at hg
    subst hg
    exact ⟨"w:r".data, by decide, by decide, by decide⟩
  have htag2 : ∀ g ∈ (["<w:t>".data] : List (List Char)), IsTag g := by
    intro g hg
    rw [List.mem_singleton] at hg
    subst hg
    exact ⟨"w:t".data, by decide, by decide, by decide⟩
  exact split_tags_adjacent_tolerated "NAME".data "name".data "MV TEST".data
    [] [] [] [] ["<w:r>".data] ["<w:t>".data]
    (by decide) (by decide) (by decide) (by decide) (by decide) (by decide)
    htag1 htag2 (by decide) (by decide) (by decide) (by decide)

/-- C7 (counterexample): a value containing a backslash is NOT inserted
verbatim: `re.sub` treats the replacement string as a template, so the
value `a\t` (backslash before `t`) is inserted as `a` followed by a TAB
character. -/
theorem backslash_escape_reinterpreted :
    applyKey "A".data ['a', '\\', 't'] "\x7b\x7bA\x7d\x7d".data =
        .ok ['a', '\t'] ∧
      (['a', '\t'] : List Char) ≠ ['a', '\\', 't'] := by
  have hp : parseTmpl ['a', '\\', 't'] = .ok [TItem.lit ['a'], TItem.lit ['\t']] := by
    rw [parseTmpl.eq_def]
    simp [escMap]
    rw [parseTmpl.eq_def]
    simp [escMap]
    rw [show parseTmpl ([] : List Char) = .ok [] from by rw [parseTmpl.eq_def]]
    rfl
  refine ⟨?_, by decide⟩
  unfold applyKey pySub
  rw [hp]
  dsimp only
  have hhead : (msplits (patDouble ['A'])
      ['\x7b', '\x7b', 'A', '\x7d', '\x7d']).head? = some [] :=
    @patDouble_whole "A".data "A".data [] [] [] [] [] []
      (by decide) (by decide) (by decide) (by decide) (by decide)
      (by decide) (by intro g hg; cases hg) (by intro g hg; cases hg)
  rw [reSubAux_whole _ hhead (patDouble_nil _)]
  rw [show expandTmpl [TItem.lit ['a'], TItem.lit ['\t']]
    ['\x7b', '\x7b', 'A', '\x7d', '\x7d'] = ['a', '\t'] from rfl]
  rw [(reSubAux_skip_open _ (by decide)).2]

/-- C7 (amended): a backslash-free value is inserted verbatim — characters
such as parentheses, brackets, dots and plus signs that are special to the
pattern language appear literally in the substituted output; only
backslash sequences are reinterpreted (as replacement-template escapes). -/
theorem literal_value_inserted_verbatim (v : List Char)
    (hv1 : '\\' ∉ v) (hv2 : ∀ c ∈ v, c.toLower ≠ '\x7b') :
    fillXml [("A".data, v)] "\x7b\x7bA\x7d\x7d".data = .ok v := by
  unfold fillXml applyKey
  rw [pySub_noBackslash _ _ hv1]
  rw [show ("\x7b\x7bA\x7d\x7d".data : List Char) =
    '\x7b' :: '\x7b' :: midShape "A".data [] [] [] [] [] [] from rfl]
  rw [reSubAux_whole _
    (patDouble_whole (by decide) (by decide) (by decide) (by decide) (by decide)
      (by decide) (by intro g hg; cases hg) (by intro g hg; cases hg))
    (patDouble_nil _)]
  rw [expandTmpl_lits]
  dsimp only
  rw [pySub_noBackslash _ _ hv1]
  rw [(reSubAux_skip_open _ hv2).2]
  rfl

theorem literal_value_inserted_verbatim_witness :
    fillXml [("A".data, "(x).[y]+$".data)] "\x7b\x7bA\x7d\x7d".data =
      .ok "(x).[y]+$".data :=
  literal_value_inserted_verbatim "(x).[y]+$".data (by decide) (by decide)

/-- C2: keys are applied one at a time in dictionary order against the
progressively updated content, double pattern before single, so a later
key's placeholder occurring inside an earlier key's substituted value text
is itself substituted; processing the same map in the opposite order leaves
that placeholder unsubstituted, exhibiting the order dependence. -/
theorem ordered_chained_substitution (v2 : List Char)
    (hv1 : '\\' ∉ v2) (hv2 : ∀ c ∈ v2, c.toLower ≠ '\x7b') :
    fillXml [("A".data, "\x7b\x7bB\x7d\x7d".data), ("B".data, v2)]
        "\x7b\x7bA\x7d\x7d".data = .ok v2 ∧
      fillXml [("B".data, v2), ("A".data, "\x7b\x7bB\x7d\x7d".data)]
        "\x7b\x7bA\x7d\x7d".data = .ok "\x7b\x7bB\x7d\x7d".data := by
  have hheadA : (msplits (patDouble "A".data)
      ['\x7b', '\x7b', 'A', '\x7d', '\x7d']).head? = some [] :=
    @patDouble_whole "A".data "A".data [] [] [] [] [] []
      (by decide) (by decide) (by decide) (by decide) (by decide)
      (by decide) (by intro g hg; cases hg) (by intro g hg; cases hg)
  have hheadB : (msplits (patDouble "B".data)
      ['\x7b', '\x7b', 'B', '\x7d', '\x7d']).head? = some [] :=
    @patDouble_whole "B".data "B".data [] [] [] [] [] []
      (by decide) (by decide) (by decide) (by decide) (by decide)
      (by decide) (by intro g hg; cases hg) (by intro g hg; cases hg)
  have hA : applyKey "A".data "\x7b\x7bB\x7d\x7d".data "\x7b\x7bA\x7d\x7d".data =
      .ok "\x7b\x7bB\x7d\x7d".data := by
    unfold applyKey
    rw [pySub_noBackslash _ _ (by decide)]
    rw [show ("\x7b\x7bA\x7d\x7d".data : List Char) =
      ['\x7b', '\x7b', 'A', '\x7d', '\x7d'] from rfl]
    rw [reSubAux_whole _ hheadA (patDouble_nil _)]
    rw [expandTmpl_lits]
    dsimp only
    rw [pySub_noBackslash _ _ (by decide)]
    rw [tails_never_match _ _ (by
      intro u hu
      fin_cases hu <;> (rw [msplits_eval]; decide))]
  have hB : applyKey "B".data v2 "\x7b\x7bB\x7d\x7d".data = .ok v2 := by
    unfold applyKey
    rw [pySub_noBackslash _ _ hv1]
    rw [show ("\x7b\x7bB\x7d\x7d".data : List Char) =
      ['\x7b', '\x7b', 'B', '\x7d', '\x7d'] from rfl]
    rw [reSubAux_whole _ hheadB (patDouble_nil _)]
    rw [expandTmpl_lits]
    dsimp only
    rw [pySub_noBackslash _ _ hv1]
    rw [(reSubAux_skip_open _ hv2).2]
  have hBnoA : applyKey "B".data v2 "\x7b\x7bA\x7d\x7d".data =
      .ok "\x7b\x7bA\x7d\x7d".data := by
    unfold applyKey
    rw [pySub_noBackslash _ _ hv1]
    rw [tails_never_match _ _ (by
      intro u hu
      fin_cases hu <;> (rw [msplits_eval]; decide))]
    dsimp only
    rw [pySub_noBackslash _ _ hv1]
    rw [tails_never_match _ _ (by
      intro u hu
      fin_cases hu <;> (rw [msplits_eval]; decide))]
  constructor
  · simp only [fillXml]
    rw [hA]
    dsimp only
    rw [hB]
  · simp only [fillXml]
    rw [hBnoA]
    dsimp only
    rw [hA]

theorem ordered_chained_substitution_witness :
    fillXml [("A".data, "\x7b\x7bB\x7d\x7d".data), ("B".data, "z".data)]
        "\x7b\x7bA\x7d\x7d".data = .ok "z".data ∧
      fillXml [("B".data, "z".data), ("A".data, "\x7b\x7bB\x7d\x7d".data)]
        "\x7b\x7bA\x7d\x7d".data = .ok "\x7b\x7bB\x7d\x7d".data :=
  ordered_chained_substitution "z".data (by decide) (by decide)
